import Mathlib

/-
  Verification development for the expression compiler of the fixlang repository.

  Shallow embedding of:
    * src/ast.rs        : the expression AST, ExprInfo envelopes, calculate_free_vars
    * src/generator.rs  : LocalVariables (the Scope), GenerationContext,
                          generate_expr / generate_var / generate_app / generate_lam /
                          generate_let / generate_if, get_var_retained_if_used_later,
                          add_i32_to_u32
    * src/types.rs      : ObjectFieldType, ObjectType, generate_func_dtor,
                          build_allocate_shared_obj

  Modelling conventions:
    * LLVM SSA values are abstract identifiers (Nat); pointer casts via
      build_pointer_cast are value preserving, so they are the identity on these
      identifiers. SANITIZE_MEMORY is false, as in the default build.
    * Basic blocks are identifiers (Nat); every emitted instruction is tagged with
      the builder's insertion block at the moment it is emitted. The whole module
      shares one instruction trace, appended to from left to right.
    * Rust panics (unwrap / unreachable! / todo! / debug-mode integer overflow)
      are `none`.
    * A Rust Vec used as a stack is a Lean list whose HEAD is the most recently
      pushed element (Vec::push / last / pop act on the Vec's end).
-/

/-- An abstract LLVM SSA value identifier (for `PointerValue` / `IntValue`). -/
abbrev Ptr := Nat

/-- An abstract basic-block identifier. -/
abbrev BB := Nat

/-- src/generator.rs `LocalVariable`: the IR value bound to a name plus its
`used_later` counter (a u32 in the source). -/
structure LocalVariable where
  code : Ptr
  used_later : Nat
deriving Repr, DecidableEq

/-- src/generator.rs `LocalVariables`: a map from name to the stack of live
bindings of that name.  The HashMap is an association list; each Vec is a list
with the most recent binding at the head. -/
structure LocalVariables where
  data : List (String × List LocalVariable)
deriving Repr, DecidableEq

/-- src/generator.rs `add_i32_to_u32`.  Rust u32 arithmetic with debug overflow
checks: `u - i.wrapping_abs() as u32` panics when the magnitude of a negative
`i` exceeds `u`, and `u + i as u32` panics when the sum leaves the u32 range;
both panics are `none`. -/
def add_i32_to_u32 (u : Nat) (i : Int) : Option Nat :=
  if i < 0 then
    if i.natAbs ≤ u then some (u - i.natAbs) else none
  else
    if u + i.natAbs < 2 ^ 32 then some (u + i.natAbs) else none

/-- Lookup of the binding stack of a name (`self.data.get(var_name)`). -/
def LocalVariables.dataLookup (s : LocalVariables) (n : String) :
    Option (List LocalVariable) :=
  go s.data
where go : List (String × List LocalVariable) → Option (List LocalVariable)
  | [] => none
  | (m, st) :: rest => if m = n then some st else go rest

/-- src/generator.rs `LocalVariables::push`: insert an empty stack when the name
is absent, then push a new binding with `used_later = 0`. -/
def LocalVariables.push (s : LocalVariables) (var_name : String) (code : Ptr) :
    LocalVariables :=
  ⟨go s.data⟩
where go : List (String × List LocalVariable) → List (String × List LocalVariable)
  | [] => [(var_name, [⟨code, 0⟩])]
  | (m, st) :: rest =>
      if m = var_name then (m, ⟨code, 0⟩ :: st) :: rest else (m, st) :: go rest

/-- src/generator.rs `LocalVariables::pop`: `get_mut(..).unwrap()` panics when the
name is absent (`none`); otherwise drop the most recent binding and remove the
map entry when the stack becomes empty. -/
def LocalVariables.pop (s : LocalVariables) (var_name : String) :
    Option LocalVariables :=
  (go s.data).map LocalVariables.mk
where go : List (String × List LocalVariable) →
    Option (List (String × List LocalVariable))
  | [] => none
  | (m, st) :: rest =>
      if m = var_name then
        if st.tail.isEmpty then some rest else some ((m, st.tail) :: rest)
      else (go rest).map ((m, st) :: ·)

/-- src/generator.rs `LocalVariables::get`: `self.data.get(..).unwrap().last().unwrap()`;
either unwrap panics as `none`. -/
def LocalVariables.get (s : LocalVariables) (var_name : String) :
    Option LocalVariable :=
  (s.dataLookup var_name).bind List.head?

/-- The loop body of src/generator.rs `LocalVariables::modify_used_later` for one
name: `last_mut().unwrap()` on the stack of the name, then
`*used_later = add_i32_to_u32(*used_later, by)`. -/
def LocalVariables.modify_used_later_one (s : LocalVariables) (name : String)
    (delta : Int) : Option LocalVariables :=
  (go s.data).map LocalVariables.mk
where go : List (String × List LocalVariable) →
    Option (List (String × List LocalVariable))
  | [] => none
  | (m, st) :: rest =>
      if m = name then
        match st with
        | [] => none
        | v :: tl =>
            (add_i32_to_u32 v.used_later delta).map
              (fun u => (m, ⟨v.code, u⟩ :: tl) :: rest)
      else (go rest).map ((m, st) :: ·)

/-- src/generator.rs `LocalVariables::modify_used_later`: apply the counter
update to every name in the set (iterated here in list order). -/
def LocalVariables.modify_used_later (s : LocalVariables) (names : List String)
    (delta : Int) : Option LocalVariables :=
  match names with
  | [] => some s
  | n :: rest =>
      match s.modify_used_later_one n delta with
      | none => none
      | some s1 => s1.modify_used_later rest delta

/-- src/types.rs `ObjectFieldType`. -/
inductive ObjectFieldType where
  | ControlBlock
  | LambdaFunction
  | SubObject
  | Int
  | Bool
deriving Repr, DecidableEq

/-- src/types.rs `ObjectType`: an object layout, i.e. an ordered list of field
kinds. -/
structure ObjectType where
  field_types : List ObjectFieldType
deriving Repr, DecidableEq

/-- src/types.rs `ObjectType::bool_obj_type`. -/
def ObjectType.bool_obj_type : ObjectType :=
  ⟨[.ControlBlock, .Bool]⟩

/-- src/types.rs `ObjectType::int_obj_type`. -/
def ObjectType.int_obj_type : ObjectType :=
  ⟨[.ControlBlock, .Int]⟩

/-- One emitted IR instruction, tagged with the basic block it was emitted in.
`retain`/`release` are the runtime calls inserted by build_retain/build_release;
`alloc` is the allocation sequence of build_allocate_shared_obj and records the
layout and the destructor function id stored into the control block;
`applyFn` is the (tail) call through a closure's function pointer;
`litEmit` stands for the IR synthesized by a literal's own generator. -/
inductive Instr where
  | retain (p : Ptr) (bb : BB)
  | release (p : Ptr) (bb : BB)
  | loadField (obj : Ptr) (idx : Nat) (result : Ptr) (bb : BB)
  | setField (obj : Ptr) (idx : Nat) (value : Ptr) (bb : BB)
  | setFuncField (obj : Ptr) (idx : Nat) (fn : Nat) (bb : BB)
  | alloc (layout : ObjectType) (dtorFn : Nat) (result : Ptr) (bb : BB)
  | applyFn (fnObj arg result : Ptr) (bb : BB)
  | intCast (value result : Ptr) (bb : BB)
  | condBr (cond : Ptr) (thenBB elseBB : BB) (bb : BB)
  | br (target : BB) (bb : BB)
  | phi (incoming : List (Ptr × BB)) (result : Ptr) (bb : BB)
  | ret (value : Ptr) (bb : BB)
  | retVoid (bb : BB)
  | litEmit (name : String) (result : Ptr) (bb : BB)
deriving Repr, DecidableEq

/-- src/generator.rs `GenerationContext`, flattened together with the module and
the builder: `scope` and `dtorMemo` (the `RuntimeFunctions::Dtor` entries of the
`runtimes` map) belong to the context; `instrs`, `nextPtr`, `nextBB`, `nextFn`
are module/LLVM-context wide; `curBB` is the builder's insertion block. -/
structure GenerationContext where
  scope : LocalVariables
  curBB : BB
  dtorMemo : List (ObjectType × Nat)
  instrs : List Instr
  nextPtr : Nat
  nextBB : Nat
  nextFn : Nat
deriving Repr, DecidableEq

/-- Append one instruction at the builder's position. -/
def emit (i : Instr) (s : GenerationContext) : GenerationContext :=
  { s with instrs := s.instrs ++ [i] }

/-- src/generator.rs `GenerationContext::build_retain` (the type assertion on the
argument always holds at our abstraction). -/
def build_retain (p : Ptr) (s : GenerationContext) : GenerationContext :=
  emit (.retain p s.curBB) s

/-- src/generator.rs `GenerationContext::build_release`. -/
def build_release (p : Ptr) (s : GenerationContext) : GenerationContext :=
  emit (.release p s.curBB) s

/-- src/generator.rs `GenerationContext::get_var_retained_if_used_later`:
read the current binding; retain it when `used_later > 0`, otherwise hand the
existing handle over unchanged. -/
def get_var_retained_if_used_later (s : GenerationContext) (var_name : String) :
    Option (Ptr × GenerationContext) :=
  match s.scope.get var_name with
  | none => none
  | some var =>
      if 0 < var.used_later then some (var.code, build_retain var.code s)
      else some (var.code, s)

/-- Lookup in the destructor memo table (`runtimes.get(&RuntimeFunctions::Dtor(..))`). -/
def memoLookup : List (ObjectType × Nat) → ObjectType → Option Nat
  | [], _ => none
  | (k, v) :: rest, ot => if k = ot then some v else memoLookup rest ot

/-- The destructor body of src/types.rs `generate_func_dtor`: walk the fields in
order and release every SubObject field (a load of the field followed by a
release).  Returns the instructions and the next fresh value id. -/
def dtorFieldInstrs : List ObjectFieldType → Nat → Ptr → Nat → BB →
    (List Instr × Nat)
  | [], _, _, fresh, _ => ([], fresh)
  | ft :: rest, idx, objP, fresh, bb =>
      match ft with
      | .SubObject =>
          let (tl, fr) := dtorFieldInstrs rest (idx + 1) objP (fresh + 1) bb
          (Instr.loadField objP idx fresh bb :: Instr.release fresh bb :: tl, fr)
      | _ => dtorFieldInstrs rest (idx + 1) objP fresh bb

/-- src/types.rs `ObjectType::generate_func_dtor`: memoized per layout in the
current context's `runtimes` map.  On a miss, add a fresh module function whose
body releases every SubObject field, record it in the memo, and leave the
builder's position unchanged (push_builder guard). -/
def generate_func_dtor (ot : ObjectType) (s : GenerationContext) :
    Nat × GenerationContext :=
  match memoLookup s.dtorMemo ot with
  | some f => (f, s)
  | none =>
      let f := s.nextFn
      let bb := s.nextBB
      let objP := s.nextPtr
      let bf := dtorFieldInstrs ot.field_types 0 objP (s.nextPtr + 1) bb
      (f, { s with
              nextFn := f + 1
              nextBB := bb + 1
              nextPtr := bf.2
              instrs := s.instrs ++ bf.1 ++ [Instr.retVoid bb]
              dtorMemo := (ot, f) :: s.dtorMemo })

/-- src/types.rs `ObjectType::build_allocate_shared_obj`: malloc the layout,
initialize the refcount to 1 and store a pointer to the (memoized) destructor —
all of which the `alloc` instruction records. -/
def build_allocate_shared_obj (ot : ObjectType) (s : GenerationContext) :
    Ptr × GenerationContext :=
  let ds := generate_func_dtor ot s
  let obj := ds.2.nextPtr
  (obj, emit (.alloc ot ds.1 obj ds.2.curBB) { ds.2 with nextPtr := obj + 1 })

/-- src/ast.rs `Var`. -/
inductive Var where
  | termVar (name : String)
  | tyVar (name : String)
deriving Repr, DecidableEq

/-- src/ast.rs `Var::name`. -/
def Var.name : Var → String
  | .termVar n => n
  | .tyVar n => n

/-- src/generator.rs `SELF_NAME`. -/
def SELF_NAME : String := "%SELF%"

/-- src/ast.rs `Expr` together with its `ExprInfo` envelope: every node carries
the `free_vars` annotation of its subtree (a HashSet, modelled as a list).
A `lit` node carries the literal's declared free-variable list and its name. -/
inductive ExprInfo where
  | var (v : Var) (free_vars : List String)
  | lit (lit_free_vars : List String) (lit_name : String) (free_vars : List String)
  | app (func arg : ExprInfo) (free_vars : List String)
  | lam (arg : Var) (val : ExprInfo) (free_vars : List String)
  | letE (var : Var) (bound val : ExprInfo) (free_vars : List String)
  | ifE (cond then_expr else_expr : ExprInfo) (free_vars : List String)
  | typeE (free_vars : List String)
deriving Repr, DecidableEq

/-- The `free_vars` field of the `ExprInfo` envelope. -/
def ExprInfo.free_vars : ExprInfo → List String
  | .var _ fv => fv
  | .lit _ _ fv => fv
  | .app _ _ fv => fv
  | .lam _ _ fv => fv
  | .letE _ _ _ fv => fv
  | .ifE _ _ _ fv => fv
  | .typeE fv => fv

/-- `HashSet::remove` on a set modelled as a list. -/
def hsRemove (s : List String) (n : String) : List String :=
  s.filter (fun m => decide (m ≠ n))

/-- `HashSet::extend`: insert every element of `add` into `base`. -/
def hsExtend (base add : List String) : List String :=
  add.union base

/-- src/ast.rs `calculate_free_vars`: the bottom-up pass that rebuilds the AST
with populated `free_vars` sets.  `Let(x, b, v)` gets `(fv(v) \ {x}) ∪ fv(b)`
(non-recursive let); a `Type` node is returned unchanged. -/
def calculate_free_vars : ExprInfo → ExprInfo
  | .var v _ => .var v [v.name]
  | .lit lfv ln _ => .lit lfv ln lfv.dedup
  | .app f a _ =>
      let f' := calculate_free_vars f
      let a' := calculate_free_vars a
      .app f' a' (hsExtend f'.free_vars a'.free_vars)
  | .lam v b _ =>
      let b' := calculate_free_vars b
      .lam v b' (hsRemove (hsRemove b'.free_vars v.name) SELF_NAME)
  | .letE x b v _ =>
      let b' := calculate_free_vars b
      let v' := calculate_free_vars v
      .letE x b' v' (hsExtend (hsRemove v'.free_vars x.name) b'.free_vars)
  | .ifE c t e _ =>
      let c' := calculate_free_vars c
      let t' := calculate_free_vars t
      let e' := calculate_free_vars e
      .ifE c' t' e' (hsExtend (hsExtend c'.free_vars t'.free_vars) e'.free_vars)
  | .typeE fv => .typeE fv

/-- Modelled from the spec: the literal generators (`add`, `eq`, `fix`, the array
primitives and integer/boolean literals) live outside src/ (Rule R7: "Invoke the
literal's own generator, which synthesizes the required IR and returns a pointer
value. Literals are opaque to the core").  The generator is modelled as emitting
its own IR (one opaque `litEmit` instruction) and returning a fresh pointer
value; it does not touch the scope's counters. -/
def generate_literal (lit_name : String) (s : GenerationContext) :
    Option (Ptr × GenerationContext) :=
  let p := s.nextPtr
  some (p, { s with
               nextPtr := p + 1
               instrs := s.instrs ++ [.litEmit lit_name p s.curBB] })

/-- src/generator.rs `generate_var`: a term variable is read through
`get_var_retained_if_used_later`; a type variable is `unreachable!()`. -/
def generate_var (v : Var) (s : GenerationContext) :
    Option (Ptr × GenerationContext) :=
  match v with
  | .termVar name => get_var_retained_if_used_later s name
  | .tyVar _ => none

/-- src/generator.rs `GenerationContext::build_app`: load the function pointer
from field 1 of the closure object and (tail) call it with `(arg, fun_obj)`;
neither operand is released — both handles move into the call. -/
def build_app (ptr_to_lambda ptr_to_arg : Ptr) (s : GenerationContext) :
    Ptr × GenerationContext :=
  let fnP := s.nextPtr
  let retP := s.nextPtr + 1
  (retP, { s with
             nextPtr := s.nextPtr + 2
             instrs := s.instrs ++
               [.loadField ptr_to_lambda 1 fnP s.curBB,
                .applyFn ptr_to_lambda ptr_to_arg retP s.curBB] })

/-- The capture list of src/generator.rs `generate_lam`:
`val.free_vars` with the parameter name and `%SELF%` removed, in a fixed order. -/
def captured_names_of (arg_name : String) (val_free_vars : List String) :
    List String :=
  hsRemove (hsRemove val_free_vars arg_name) SELF_NAME

/-- The closure object layout of `generate_lam`: control block, function pointer,
one SubObject field per captured name. -/
def closure_obj_type (captured : List String) : ObjectType :=
  ⟨[.ControlBlock, .LambdaFunction] ++ captured.map (fun _ => .SubObject)⟩

/-- The capture-retain loop of `generate_lam`: for each captured name read the
binding back from the (freshly populated) scope and retain it.  `scope.get`
panics (`none`) when a name is missing. -/
def retainCaptures (sc : LocalVariables) (names : List String) (bb : BB) :
    Option (List Instr) :=
  match names with
  | [] => some []
  | cap :: rest =>
      match sc.get cap with
      | none => none
      | some v => (retainCaptures sc rest bb).map (Instr.retain v.code bb :: ·)

/-- The dead-variable release loop at the head of each `generate_if` branch:
for every `var_name` in `other_fv`, if it is not in `this_fv` (checked first,
short-circuiting) and its current `used_later` is 0, release its bound value. -/
def releaseDeadVars (other_fv this_fv : List String) (sc : LocalVariables)
    (bb : BB) : Option (List Instr) :=
  match other_fv with
  | [] => some []
  | v :: rest =>
      if v ∈ this_fv then releaseDeadVars rest this_fv sc bb
      else
        match sc.get v with
        | none => none
        | some lv =>
            (releaseDeadVars rest this_fv sc bb).map
              (fun tl =>
                if lv.used_later = 0 then Instr.release lv.code bb :: tl else tl)

/-- The capture-store loop at the end of `generate_lam`: for each captured name,
fetch it with `get_var_retained_if_used_later` (in the enclosing context) and
store it into the next SubObject field of the closure. -/
def storeCaptures (names : List String) (obj : Ptr) (idx : Nat)
    (s : GenerationContext) : Option GenerationContext :=
  match names with
  | [] => some s
  | cap :: rest =>
      match get_var_retained_if_used_later s cap with
      | none => none
      | some (p, s1) =>
          storeCaptures rest obj (idx + 1) (emit (.setField obj idx p s1.curBB) s1)

/-- src/generator.rs `generate_expr` and the per-variant generators it
dispatches to.  The final `build_pointer_cast` of every result to the generic
object-pointer type is the identity at our abstraction.  A `Type` node is
`todo!()`. -/
def generate_expr : ExprInfo → GenerationContext → Option (Ptr × GenerationContext)
  | .var v _, s => generate_var v s
  | .lit _ lit_name _, s => generate_literal lit_name s
  | .app func arg _, s =>
      -- generate_app: bump used_later by the free vars of `arg` around `func`
      match s.scope.modify_used_later arg.free_vars 1 with
      | none => none
      | some sc1 =>
      match generate_expr func { s with scope := sc1 } with
      | none => none
      | some (lambdaCode, s2) =>
      match s2.scope.modify_used_later arg.free_vars (-1) with
      | none => none
      | some sc3 =>
      match generate_expr arg { s2 with scope := sc3 } with
      | none => none
      | some (argCode, s4) =>
          -- neither operand is released: both handles move into the call
          some (build_app lambdaCode argCode s4)
  | .lam argv val _, s =>
      -- generate_lam
      let captured := captured_names_of argv.name val.free_vars
      let obj_type := closure_obj_type captured
      let lam_fn := s.nextFn
      let entryBB := s.nextBB
      let argP := s.nextPtr
      let selfP := s.nextPtr + 1
      let capPtrs := (List.range captured.length).map (fun i => s.nextPtr + 2 + i)
      let capLoads := (List.range captured.length).map
        (fun i => Instr.loadField selfP (i + 2) (s.nextPtr + 2 + i) entryBB)
      -- fresh scope of the lambda function: arg, %SELF%, then the captures
      -- bound to the sub-objects loaded from the closure fields
      let nestedScope :=
        (List.zip captured capPtrs).foldl (fun sc p => sc.push p.1 p.2)
          ((LocalVariables.mk [] |>.push argv.name argP).push SELF_NAME selfP)
      match retainCaptures nestedScope captured entryBB with
      | none => none
      | some capRetains =>
      -- release SELF and arg if unused in the body
      let selfRel := if SELF_NAME ∈ val.free_vars then []
                     else [Instr.release selfP entryBB]
      let argRel := if argv.name ∈ val.free_vars then []
                    else [Instr.release argP entryBB]
      -- the nested GenerationContext: same module, new builder positioned at the
      -- lambda's entry block, empty scope, and a CLONE of the runtimes map
      let nested : GenerationContext :=
        { scope := nestedScope
          curBB := entryBB
          dtorMemo := s.dtorMemo
          instrs := s.instrs ++ capLoads ++ capRetains ++ selfRel ++ argRel
          nextPtr := s.nextPtr + 2 + captured.length
          nextBB := s.nextBB + 1
          nextFn := s.nextFn + 1 }
      match generate_expr val nested with
      | none => none
      | some (bodyCode, sB) =>
      let sB2 := emit (.ret bodyCode sB.curBB) sB
      -- back in the enclosing context: outer scope and builder position; the
      -- nested context's runtimes clone (and its dtor additions) is dropped
      let sOut := { sB2 with scope := s.scope, curBB := s.curBB,
                             dtorMemo := s.dtorMemo }
      let al := build_allocate_shared_obj obj_type sOut
      let sF := emit (.setFuncField al.1 1 lam_fn al.2.curBB) al.2
      match storeCaptures captured al.1 2 sF with
      | none => none
      | some sStored => some (al.1, sStored)
  | .letE v bound val _, s =>
      -- generate_let: bump used_later by (fv(val) \ {x}) around `bound`
      let var_name := v.name
      let used_in_val_except_var := hsRemove val.free_vars var_name
      match s.scope.modify_used_later used_in_val_except_var 1 with
      | none => none
      | some sc1 =>
      match generate_expr bound { s with scope := sc1 } with
      | none => none
      | some (boundCode, s2) =>
      match s2.scope.modify_used_later used_in_val_except_var (-1) with
      | none => none
      | some sc3 =>
      let s3 := { s2 with scope := sc3.push var_name boundCode }
      let s3b := if var_name ∈ val.free_vars then s3
                 else build_release boundCode s3
      match generate_expr val s3b with
      | none => none
      | some (valCode, s4) =>
      match s4.scope.pop var_name with
      | none => none
      | some sc5 => some (valCode, { s4 with scope := sc5 })
  | .ifE cond then_expr else_expr _, s =>
      -- generate_if: bump used_later by fv(then) ∪ fv(else) around `cond`
      let used_then_or_else := hsExtend then_expr.free_vars else_expr.free_vars
      match s.scope.modify_used_later used_then_or_else 1 with
      | none => none
      | some sc1 =>
      match generate_expr cond { s with scope := sc1 } with
      | none => none
      | some (condObj, s2) =>
      match s2.scope.modify_used_later used_then_or_else (-1) with
      | none => none
      | some sc3 =>
      -- load the 8-bit boolean payload (field 1 of bool_obj), release the
      -- condition object, cast the payload to i1, append the three blocks and
      -- branch
      let condV := s2.nextPtr
      let condI1 := s2.nextPtr + 1
      let thenBB := s2.nextBB
      let elseBB := s2.nextBB + 1
      let contBB := s2.nextBB + 2
      let sA : GenerationContext :=
        { s2 with
            scope := sc3
            nextPtr := s2.nextPtr + 2
            nextBB := s2.nextBB + 3
            instrs := s2.instrs ++
              [.loadField condObj 1 condV s2.curBB,
               .release condObj s2.curBB,
               .intCast condV condI1 s2.curBB,
               .condBr condI1 thenBB elseBB s2.curBB] }
      -- then block: release variables used only in the else block
      match releaseDeadVars else_expr.free_vars then_expr.free_vars sA.scope
          thenBB with
      | none => none
      | some relThen =>
      match generate_expr then_expr
          { sA with curBB := thenBB, instrs := sA.instrs ++ relThen } with
      | none => none
      | some (thenCode, s5) =>
      let s5b := emit (.br contBB s5.curBB) s5
      -- else block: release variables used only in the then block
      match releaseDeadVars then_expr.free_vars else_expr.free_vars s5b.scope
          elseBB with
      | none => none
      | some relElse =>
      match generate_expr else_expr
          { s5b with curBB := elseBB, instrs := s5b.instrs ++ relElse } with
      | none => none
      | some (elseCode, s6) =>
      let s6b := emit (.br contBB s6.curBB) s6
      -- continuation block: a two-incoming phi, pairing the branch results with
      -- the originally appended then/else blocks (as the source does)
      let phiP := s6b.nextPtr
      some (phiP, { s6b with
                      curBB := contBB
                      nextPtr := phiP + 1
                      instrs := s6b.instrs ++
                        [.phi [(thenCode, thenBB), (elseCode, elseBB)] phiP contBB] })
  | .typeE _, _ => none

/-
  Scope algebra: lemmas about the per-name counter updates, the push/pop stack
  discipline and the map invariant.
-/

lemma add_i32_to_u32_one_eq (u u' : Nat) (h : add_i32_to_u32 u 1 = some u') :
    u' = u + 1 := by
  unfold add_i32_to_u32 at h
  have h0 : ¬ ((1 : Int) < 0) := by decide
  rw [if_neg h0] at h
  simp only [Int.natAbs_one] at h
  split at h
  · exact ((Option.some.injEq _ _).mp h).symm
  · exact absurd h (by simp)

lemma add_i32_to_u32_cancel (u u' : Nat) (h : add_i32_to_u32 u 1 = some u') :
    add_i32_to_u32 u' (-1) = some u := by
  have h1 := add_i32_to_u32_one_eq u u' h
  subst h1
  unfold add_i32_to_u32
  have h0 : ((-1 : Int) < 0) := by decide
  rw [if_pos h0]
  have h2 : ((-1 : Int)).natAbs = 1 := by decide
  rw [h2, if_pos (by omega)]
  simp

lemma modify_one_go_cancel (n : String) :
    ∀ d d', LocalVariables.modify_used_later_one.go n 1 d = some d' →
      LocalVariables.modify_used_later_one.go n (-1) d' = some d := by
  intro d
  induction d with
  | nil => intro d' h; simp [LocalVariables.modify_used_later_one.go] at h
  | cons p r ih =>
      obtain ⟨m, st⟩ := p
      intro d' h
      by_cases hm : m = n
      · subst hm
        cases st with
        | nil => simp [LocalVariables.modify_used_later_one.go] at h
        | cons v tl =>
            simp only [LocalVariables.modify_used_later_one.go, if_pos rfl] at h
            cases hadd : add_i32_to_u32 v.used_later 1 with
            | none => rw [hadd] at h; simp at h
            | some u' =>
                rw [hadd] at h
                simp only [Option.map_some'] at h
                obtain rfl := (Option.some.injEq _ _).mp h
                simp only [LocalVariables.modify_used_later_one.go, if_pos rfl]
                rw [add_i32_to_u32_cancel _ _ hadd]
                simp
      · simp only [LocalVariables.modify_used_later_one.go, if_neg hm] at h
        cases hgo : LocalVariables.modify_used_later_one.go n 1 r with
        | none => rw [hgo] at h; simp at h
        | some r' =>
            rw [hgo] at h
            simp only [Option.map_some'] at h
            obtain rfl := (Option.some.injEq _ _).mp h
            simp only [LocalVariables.modify_used_later_one.go, if_neg hm]
            rw [ih r' hgo]
            simp

lemma modify_one_go_frame (n : String) (i : Int) (m : String) (hm : m ≠ n) :
    ∀ d d', LocalVariables.modify_used_later_one.go n i d = some d' →
      LocalVariables.dataLookup.go m d' = LocalVariables.dataLookup.go m d := by
  intro d
  induction d with
  | nil => intro d' h; simp [LocalVariables.modify_used_later_one.go] at h
  | cons p r ih =>
      obtain ⟨k, st⟩ := p
      intro d' h
      by_cases hk : k = n
      · subst hk
        cases st with
        | nil => simp [LocalVariables.modify_used_later_one.go] at h
        | cons v tl =>
            simp only [LocalVariables.modify_used_later_one.go, if_pos rfl] at h
            cases hadd : add_i32_to_u32 v.used_later i with
            | none => rw [hadd] at h; simp at h
            | some u' =>
                rw [hadd] at h
                simp only [Option.map_some'] at h
                obtain rfl := (Option.some.injEq _ _).mp h
                have hmk : ¬ (k = m) := fun hh => hm (hh ▸ rfl)
                simp [LocalVariables.dataLookup.go, hmk]
      · simp only [LocalVariables.modify_used_later_one.go, if_neg hk] at h
        cases hgo : LocalVariables.modify_used_later_one.go n i r with
        | none => rw [hgo] at h; simp at h
        | some r' =>
            rw [hgo] at h
            simp only [Option.map_some'] at h
            obtain rfl := (Option.some.injEq _ _).mp h
            by_cases hkm : k = m
            · simp [LocalVariables.dataLookup.go, hkm]
            · simp [LocalVariables.dataLookup.go, hkm, ih r' hgo]

lemma modify_one_go_isSome_iff (n : String) (i : Int) :
    ∀ d, (LocalVariables.modify_used_later_one.go n i d).isSome ↔
      ∃ v tl, LocalVariables.dataLookup.go n d = some (v :: tl) ∧
        (add_i32_to_u32 v.used_later i).isSome := by
  intro d
  induction d with
  | nil => simp [LocalVariables.modify_used_later_one.go, LocalVariables.dataLookup.go]
  | cons p r ih =>
      obtain ⟨k, st⟩ := p
      by_cases hk : k = n
      · subst hk
        cases st with
        | nil => simp [LocalVariables.modify_used_later_one.go,
                       LocalVariables.dataLookup.go]
        | cons v tl =>
            simp only [LocalVariables.modify_used_later_one.go, if_pos rfl,
                       LocalVariables.dataLookup.go]
            cases hadd : add_i32_to_u32 v.used_later i <;> simp [hadd]
      · simp only [LocalVariables.modify_used_later_one.go, if_neg hk,
                   LocalVariables.dataLookup.go, if_neg hk]
        cases hgo : LocalVariables.modify_used_later_one.go n i r with
        | none => rw [hgo] at ih; simpa using ih
        | some r' => rw [hgo] at ih; simpa using ih

lemma modify_one_go_commute (n m : String) (hnm : m ≠ n) (i j : Int) :
    ∀ d, (LocalVariables.modify_used_later_one.go m i d).bind
          (LocalVariables.modify_used_later_one.go n j) =
        (LocalVariables.modify_used_later_one.go n j d).bind
          (LocalVariables.modify_used_later_one.go m i) := by
  intro d
  induction d with
  | nil => simp [LocalVariables.modify_used_later_one.go]
  | cons p r ih =>
      obtain ⟨k, st⟩ := p
      by_cases hkm : k = m
      · subst hkm
        have hkn : ¬ (k = n) := hnm
        cases st with
        | nil =>
            simp only [LocalVariables.modify_used_later_one.go, if_pos rfl,
                       if_neg hkn, Option.none_bind]
            cases hy : LocalVariables.modify_used_later_one.go n j r with
            | none => simp [hy]
            | some b => simp [hy, LocalVariables.modify_used_later_one.go]
        | cons v tl =>
            cases hadd : add_i32_to_u32 v.used_later i with
            | none =>
                simp only [LocalVariables.modify_used_later_one.go, if_pos rfl,
                           if_neg hkn, hadd]
                cases hy : LocalVariables.modify_used_later_one.go n j r <;>
                  simp [hy, LocalVariables.modify_used_later_one.go, hadd]
            | some u' =>
                simp only [LocalVariables.modify_used_later_one.go, if_pos rfl,
                           if_neg hkn, hadd]
                cases hy : LocalVariables.modify_used_later_one.go n j r <;>
                  simp [hy, LocalVariables.modify_used_later_one.go, hkn, hadd]
      · by_cases hkn : k = n
        · subst hkn
          have hkm' : ¬ (k = m) := fun hh => hkm hh
          cases st with
          | nil => simp [LocalVariables.modify_used_later_one.go, hkm']
          | cons v tl =>
              cases hadd : add_i32_to_u32 v.used_later j with
              | none =>
                  simp only [LocalVariables.modify_used_later_one.go, if_pos rfl,
                             if_neg hkm', hadd]
                  cases hx : LocalVariables.modify_used_later_one.go m i r <;>
                    simp [hx, LocalVariables.modify_used_later_one.go, hadd]
              | some u' =>
                  simp only [LocalVariables.modify_used_later_one.go, if_pos rfl,
                             if_neg hkm', hadd]
                  cases hx : LocalVariables.modify_used_later_one.go m i r <;>
                    simp [hx, LocalVariables.modify_used_later_one.go, hkm', hadd]
        · simp only [LocalVariables.modify_used_later_one.go, if_neg hkm, if_neg hkn]
          cases hx : LocalVariables.modify_used_later_one.go m i r with
          | none =>
              cases hy : LocalVariables.modify_used_later_one.go n j r with
              | none => simp [hx, hy]
              | some b =>
                  rw [hx, hy] at ih
                  simp only [Option.none_bind, Option.some_bind] at ih
                  simp [hx, hy, LocalVariables.modify_used_later_one.go, hkm, ← ih]
          | some a =>
              cases hy : LocalVariables.modify_used_later_one.go n j r with
              | none =>
                  rw [hx, hy] at ih
                  simp only [Option.none_bind, Option.some_bind] at ih
                  simp [hx, hy, LocalVariables.modify_used_later_one.go, hkn, ih]
              | some b =>
                  rw [hx, hy] at ih
                  simp only [Option.some_bind] at ih
                  simp only [Option.map_some', Option.some_bind,
                             LocalVariables.modify_used_later_one.go, if_neg hkm,
                             if_neg hkn]
                  rw [ih]

lemma modify_one_cancel (s s' : LocalVariables) (n : String)
    (h : s.modify_used_later_one n 1 = some s') :
    s'.modify_used_later_one n (-1) = some s := by
  unfold LocalVariables.modify_used_later_one at h ⊢
  cases hgo : LocalVariables.modify_used_later_one.go n 1 s.data with
  | none => rw [hgo] at h; simp at h
  | some d' =>
      rw [hgo] at h
      simp only [Option.map_some'] at h
      obtain rfl := (Option.some.injEq _ _).mp h
      rw [modify_one_go_cancel n s.data d' hgo]
      simp

lemma modify_one_commute (m n : String) (hnm : m ≠ n) (i j : Int)
    (s : LocalVariables) :
    (s.modify_used_later_one m i).bind (fun t => t.modify_used_later_one n j) =
    (s.modify_used_later_one n j).bind (fun t => t.modify_used_later_one m i) := by
  have hgo := modify_one_go_commute n m hnm i j s.data
  unfold LocalVariables.modify_used_later_one
  cases hx : LocalVariables.modify_used_later_one.go m i s.data with
  | none =>
      cases hy : LocalVariables.modify_used_later_one.go n j s.data with
      | none => simp [hx, hy]
      | some b =>
          rw [hx, hy] at hgo
          simp only [Option.none_bind, Option.some_bind] at hgo
          simp [hx, hy, LocalVariables.modify_used_later_one, ← hgo]
  | some a =>
      cases hy : LocalVariables.modify_used_later_one.go n j s.data with
      | none =>
          rw [hx, hy] at hgo
          simp only [Option.none_bind, Option.some_bind] at hgo
          simp [hx, hy, LocalVariables.modify_used_later_one, hgo]
      | some b =>
          rw [hx, hy] at hgo
          simp only [Option.some_bind] at hgo
          simp [hx, hy, LocalVariables.modify_used_later_one, hgo]

lemma modify_one_frame (n : String) (i : Int) (s s' : LocalVariables)
    (h : s.modify_used_later_one n i = some s') (m : String) (hm : m ≠ n) :
    s'.dataLookup m = s.dataLookup m := by
  unfold LocalVariables.modify_used_later_one at h
  cases hgo : LocalVariables.modify_used_later_one.go n i s.data with
  | none => rw [hgo] at h; simp at h
  | some d' =>
      rw [hgo] at h
      simp only [Option.map_some'] at h
      obtain rfl := (Option.some.injEq _ _).mp h
      unfold LocalVariables.dataLookup
      exact modify_one_go_frame n i m hm s.data d' hgo

lemma modify_one_isSome_iff (n : String) (i : Int) (s : LocalVariables) :
    (s.modify_used_later_one n i).isSome ↔
      ∃ v tl, s.dataLookup n = some (v :: tl) ∧
        (add_i32_to_u32 v.used_later i).isSome := by
  unfold LocalVariables.modify_used_later_one LocalVariables.dataLookup
  rw [Option.isSome_map']
  exact modify_one_go_isSome_iff n i s.data

lemma modify_list_diamond (n : String) (j : Int) :
    ∀ (L : List String), n ∉ L → ∀ (s u t0 : LocalVariables) (i : Int),
      s.modify_used_later L i = some u →
      s.modify_used_later_one n j = some t0 →
      ∃ w, u.modify_used_later_one n j = some w ∧
        t0.modify_used_later L i = some w := by
  intro L
  induction L with
  | nil =>
      intro _ s u t0 i hu ht
      simp only [LocalVariables.modify_used_later] at hu
      obtain rfl := (Option.some.injEq _ _).mp hu
      exact ⟨t0, ht, rfl⟩
  | cons r R ih =>
      intro hn s u t0 i hu ht
      have hrn : r ≠ n := fun hh => hn (hh ▸ List.mem_cons_self r R)
      have hnR : n ∉ R := fun hh => hn (List.mem_cons_of_mem r hh)
      simp only [LocalVariables.modify_used_later] at hu
      cases h1 : s.modify_used_later_one r i with
      | none => rw [h1] at hu; simp at hu
      | some s1 =>
          rw [h1] at hu
          -- commute the pending n-update past the r-update
          have hcomm := modify_one_commute r n hrn i j s
          rw [h1, ht] at hcomm
          simp only [Option.some_bind] at hcomm
          -- s1.modify_one n j succeeds because the r-update left n untouched
          have hlook := modify_one_frame r i s s1 h1 n (fun hh => hrn hh.symm)
          have hsome : (s1.modify_used_later_one n j).isSome := by
            rw [modify_one_isSome_iff, hlook]
            rw [← modify_one_isSome_iff, ht]
            rfl
          obtain ⟨t1, ht1⟩ := Option.isSome_iff_exists.mp hsome
          rw [ht1] at hcomm
          obtain ⟨w, hw1, hw2⟩ := ih hnR s1 u t1 i hu ht1
          refine ⟨w, hw1, ?_⟩
          simp only [LocalVariables.modify_used_later, ← hcomm, hw2]

lemma modify_list_cancel :
    ∀ (L : List String), L.Nodup → ∀ (s s' : LocalVariables),
      s.modify_used_later L 1 = some s' → s'.modify_used_later L (-1) = some s := by
  intro L
  induction L with
  | nil =>
      intro _ s s' h
      simp only [LocalVariables.modify_used_later] at h ⊢
      obtain rfl := (Option.some.injEq _ _).mp h
      rfl
  | cons n R ih =>
      intro hnod s s' h
      have hnR : n ∉ R := (List.nodup_cons.mp hnod).1
      have hRnod : R.Nodup := (List.nodup_cons.mp hnod).2
      simp only [LocalVariables.modify_used_later] at h
      cases h1 : s.modify_used_later_one n 1 with
      | none => rw [h1] at h; simp at h
      | some t =>
          rw [h1] at h
          have hc : t.modify_used_later_one n (-1) = some s :=
            modify_one_cancel s t n h1
          obtain ⟨w, hw1, hw2⟩ :=
            modify_list_diamond n (-1) R hnR t s' s 1 h hc
          simp only [LocalVariables.modify_used_later, hw1]
          exact ih hRnod s w hw2

/-- The Scope invariant: the name-to-stack map never maps a name to an empty
stack of bindings. -/
def LocalVariables.WF (s : LocalVariables) : Prop :=
  ∀ p ∈ s.data, p.2 ≠ []

instance (s : LocalVariables) : Decidable s.WF :=
  inferInstanceAs (Decidable (∀ p ∈ s.data, p.2 ≠ []))

lemma WF_push (s : LocalVariables) (n : String) (c : Ptr) (h : s.WF) :
    (s.push n c).WF := by
  unfold LocalVariables.WF LocalVariables.push at *
  revert h
  induction s.data with
  | nil => intro _; simp [LocalVariables.push.go]
  | cons p r ih =>
      obtain ⟨k, st⟩ := p
      intro h
      by_cases hk : k = n
      · simp only [LocalVariables.push.go, if_pos hk]
        intro q hq
        rcases List.mem_cons.mp hq with hq | hq
        · subst hq; simp
        · exact h q (List.mem_cons_of_mem _ hq)
      · simp only [LocalVariables.push.go, if_neg hk]
        intro q hq
        rcases List.mem_cons.mp hq with hq | hq
        · subst hq; exact h (k, st) (List.mem_cons_self _ _)
        · exact ih (fun q' hq' => h q' (List.mem_cons_of_mem _ hq')) q hq

lemma pop_go_WF (n : String) :
    ∀ d d', (∀ p ∈ d, p.2 ≠ ([] : List LocalVariable)) →
      LocalVariables.pop.go n d = some d' → ∀ p ∈ d', p.2 ≠ [] := by
  intro d
  induction d with
  | nil => intro d' _ hgo; simp [LocalVariables.pop.go] at hgo
  | cons p r ih =>
      obtain ⟨k, st⟩ := p
      intro d' h hgo
      by_cases hk : k = n
      · simp only [LocalVariables.pop.go, if_pos hk] at hgo
        by_cases he : st.tail.isEmpty
        · rw [if_pos he] at hgo
          obtain rfl := (Option.some.injEq _ _).mp hgo
          exact fun q hq => h q (List.mem_cons_of_mem _ hq)
        · rw [if_neg he] at hgo
          obtain rfl := (Option.some.injEq _ _).mp hgo
          intro q hq
          rcases List.mem_cons.mp hq with hq | hq
          · subst hq
            intro hemp
            exact he ((List.isEmpty_iff).mpr hemp)
          · exact h q (List.mem_cons_of_mem _ hq)
      · simp only [LocalVariables.pop.go, if_neg hk] at hgo
        cases hrec : LocalVariables.pop.go n r with
        | none => rw [hrec] at hgo; simp at hgo
        | some r' =>
            rw [hrec] at hgo
            simp only [Option.map_some'] at hgo
            obtain rfl := (Option.some.injEq _ _).mp hgo
            intro q hq
            rcases List.mem_cons.mp hq with hq | hq
            · subst hq; exact h (k, st) (List.mem_cons_self _ _)
            · exact ih r' (fun q' hq' => h q' (List.mem_cons_of_mem _ hq')) hrec q hq

lemma WF_pop (s s' : LocalVariables) (n : String) (h : s.WF)
    (hp : s.pop n = some s') : s'.WF := by
  unfold LocalVariables.WF at *
  unfold LocalVariables.pop at hp
  cases hgo : LocalVariables.pop.go n s.data with
  | none => rw [hgo] at hp; simp at hp
  | some d' =>
      rw [hgo] at hp
      simp only [Option.map_some'] at hp
      obtain rfl := (Option.some.injEq _ _).mp hp
      exact pop_go_WF n s.data d' h hgo

lemma modify_one_go_WF (n : String) (i : Int) :
    ∀ d d', (∀ p ∈ d, p.2 ≠ ([] : List LocalVariable)) →
      LocalVariables.modify_used_later_one.go n i d = some d' →
      ∀ p ∈ d', p.2 ≠ [] := by
  intro d
  induction d with
  | nil => intro d' _ hgo; simp [LocalVariables.modify_used_later_one.go] at hgo
  | cons p r ih =>
      obtain ⟨k, st⟩ := p
      intro d' h hgo
      by_cases hk : k = n
      · cases st with
        | nil => simp [LocalVariables.modify_used_later_one.go, hk] at hgo
        | cons v tl =>
            simp only [LocalVariables.modify_used_later_one.go, if_pos hk] at hgo
            cases hadd : add_i32_to_u32 v.used_later i with
            | none => rw [hadd] at hgo; simp at hgo
            | some u' =>
                rw [hadd] at hgo
                simp only [Option.map_some'] at hgo
                obtain rfl := (Option.some.injEq _ _).mp hgo
                intro q hq
                rcases List.mem_cons.mp hq with hq | hq
                · subst hq; simp
                · exact h q (List.mem_cons_of_mem _ hq)
      · simp only [LocalVariables.modify_used_later_one.go, if_neg hk] at hgo
        cases hrec : LocalVariables.modify_used_later_one.go n i r with
        | none => rw [hrec] at hgo; simp at hgo
        | some r' =>
            rw [hrec] at hgo
            simp only [Option.map_some'] at hgo
            obtain rfl := (Option.some.injEq _ _).mp hgo
            intro q hq
            rcases List.mem_cons.mp hq with hq | hq
            · subst hq; exact h (k, st) (List.mem_cons_self _ _)
            · exact ih r' (fun q' hq' => h q' (List.mem_cons_of_mem _ hq')) hrec q hq

lemma WF_modify_one (s s' : LocalVariables) (n : String) (i : Int) (h : s.WF)
    (hm : s.modify_used_later_one n i = some s') : s'.WF := by
  unfold LocalVariables.WF at *
  unfold LocalVariables.modify_used_later_one at hm
  cases hgo : LocalVariables.modify_used_later_one.go n i s.data with
  | none => rw [hgo] at hm; simp at hm
  | some d' =>
      rw [hgo] at hm
      simp only [Option.map_some'] at hm
      obtain rfl := (Option.some.injEq _ _).mp hm
      exact modify_one_go_WF n i s.data d' h hgo

lemma WF_modify_list :
    ∀ (L : List String) (s s' : LocalVariables) (i : Int), s.WF →
      s.modify_used_later L i = some s' → s'.WF := by
  intro L
  induction L with
  | nil =>
      intro s s' i h hm
      simp only [LocalVariables.modify_used_later] at hm
      obtain rfl := (Option.some.injEq _ _).mp hm
      exact h
  | cons n R ih =>
      intro s s' i h hm
      simp only [LocalVariables.modify_used_later] at hm
      cases h1 : s.modify_used_later_one n i with
      | none => rw [h1] at hm; simp at hm
      | some t =>
          rw [h1] at hm
          exact ih t s' i (WF_modify_one s t n i h h1) hm

lemma get_push (s : LocalVariables) (n : String) (c : Ptr) :
    (s.push n c).get n = some ⟨c, 0⟩ := by
  unfold LocalVariables.get LocalVariables.push LocalVariables.dataLookup
  show (LocalVariables.dataLookup.go n (LocalVariables.push.go n c s.data)).bind
      List.head? = some ⟨c, 0⟩
  induction s.data with
  | nil => simp [LocalVariables.push.go, LocalVariables.dataLookup.go]
  | cons p r ih =>
      obtain ⟨k, st⟩ := p
      by_cases hk : k = n
      · simp [LocalVariables.push.go, LocalVariables.dataLookup.go, hk]
      · simp [LocalVariables.push.go, LocalVariables.dataLookup.go, hk, ih]

lemma get_push_ne (s : LocalVariables) (m n : String) (c : Ptr) (h : m ≠ n) :
    (s.push m c).get n = s.get n := by
  unfold LocalVariables.get LocalVariables.push LocalVariables.dataLookup
  show (LocalVariables.dataLookup.go n (LocalVariables.push.go m c s.data)).bind
      List.head? = (LocalVariables.dataLookup.go n s.data).bind List.head?
  induction s.data with
  | nil => simp [LocalVariables.push.go, LocalVariables.dataLookup.go, h]
  | cons p r ih =>
      obtain ⟨k, st⟩ := p
      by_cases hk : k = m
      · subst hk
        have hkn : ¬ (k = n) := fun hh => h hh
        simp [LocalVariables.push.go, LocalVariables.dataLookup.go, hkn]
      · by_cases hkn : k = n
        · simp [LocalVariables.push.go, LocalVariables.dataLookup.go, hk, hkn,
                Ne.symm h]
        · simp [LocalVariables.push.go, LocalVariables.dataLookup.go, hk, hkn, ih]

lemma push_pop (s : LocalVariables) (n : String) (c : Ptr) (h : s.WF) :
    (s.push n c).pop n = some s := by
  unfold LocalVariables.WF at h
  unfold LocalVariables.push LocalVariables.pop
  show (LocalVariables.pop.go n (LocalVariables.push.go n c s.data)).map
      LocalVariables.mk = some ⟨s.data⟩
  revert h
  induction s.data with
  | nil => intro _; simp [LocalVariables.push.go, LocalVariables.pop.go]
  | cons p r ih =>
      obtain ⟨k, st⟩ := p
      intro h
      by_cases hk : k = n
      · have hst : ¬ st.isEmpty := by
          have := h (k, st) (List.mem_cons_self _ _)
          simpa [List.isEmpty_iff] using this
        simp [LocalVariables.push.go, LocalVariables.pop.go, hk, hst]
      · have ih' := ih (fun q hq => h q (List.mem_cons_of_mem _ hq))
        simp only [LocalVariables.push.go, if_neg hk, LocalVariables.pop.go,
                   if_neg hk]
        cases hrec : LocalVariables.pop.go n (LocalVariables.push.go n c r) with
        | none => rw [hrec] at ih'; simp at ih'
        | some r' =>
            rw [hrec] at ih'
            simp only [Option.map_some'] at ih' ⊢
            obtain hr' := (Option.some.injEq _ _).mp ih'
            have : r' = r := congrArg LocalVariables.data hr'
            subst this
            simp

/-
  Generator-level structural lemmas.
-/

/-- All `free_vars` annotations in the tree are duplicate-free, as they are for
any tree produced from HashSets. -/
def NodupFV : ExprInfo → Prop
  | .var _ fv => fv.Nodup
  | .lit _ _ fv => fv.Nodup
  | .app f a fv => fv.Nodup ∧ NodupFV f ∧ NodupFV a
  | .lam _ b fv => fv.Nodup ∧ NodupFV b
  | .letE _ b v fv => fv.Nodup ∧ NodupFV b ∧ NodupFV v
  | .ifE c t e fv => fv.Nodup ∧ NodupFV c ∧ NodupFV t ∧ NodupFV e
  | .typeE fv => fv.Nodup

instance instDecidableNodupFV : ∀ e : ExprInfo, Decidable (NodupFV e)
  | .var _ fv => inferInstanceAs (Decidable fv.Nodup)
  | .lit _ _ fv => inferInstanceAs (Decidable fv.Nodup)
  | .app f a fv =>
      haveI := instDecidableNodupFV f
      haveI := instDecidableNodupFV a
      inferInstanceAs (Decidable (fv.Nodup ∧ NodupFV f ∧ NodupFV a))
  | .lam _ b fv =>
      haveI := instDecidableNodupFV b
      inferInstanceAs (Decidable (fv.Nodup ∧ NodupFV b))
  | .letE _ b v fv =>
      haveI := instDecidableNodupFV b
      haveI := instDecidableNodupFV v
      inferInstanceAs (Decidable (fv.Nodup ∧ NodupFV b ∧ NodupFV v))
  | .ifE c t e fv =>
      haveI := instDecidableNodupFV c
      haveI := instDecidableNodupFV t
      haveI := instDecidableNodupFV e
      inferInstanceAs (Decidable (fv.Nodup ∧ NodupFV c ∧ NodupFV t ∧ NodupFV e))
  | .typeE fv => inferInstanceAs (Decidable fv.Nodup)

lemma NodupFV.free_vars_nodup : ∀ {e : ExprInfo}, NodupFV e → e.free_vars.Nodup
  | .var _ _, h => h
  | .lit _ _ _, h => h
  | .app _ _ _, h => h.1
  | .lam _ _ _, h => h.1
  | .letE _ _ _ _, h => h.1
  | .ifE _ _ _ _, h => h.1
  | .typeE _, h => h

lemma get_var_retained_spec (s : GenerationContext) (n : String) (p : Ptr)
    (s' : GenerationContext)
    (h : get_var_retained_if_used_later s n = some (p, s')) :
    ∃ Δ, s' = { s with instrs := s.instrs ++ Δ } := by
  unfold get_var_retained_if_used_later at h
  cases hg : s.scope.get n with
  | none => rw [hg] at h; simp at h
  | some v =>
      simp only [hg] at h
      by_cases hu : 0 < v.used_later
      · rw [if_pos hu] at h
        obtain ⟨h1, h2⟩ := Prod.mk.injEq .. ▸ (Option.some.injEq _ _).mp h
        exact ⟨[.retain v.code s.curBB], h2.symm ▸ rfl⟩
      · rw [if_neg hu] at h
        obtain ⟨h1, h2⟩ := Prod.mk.injEq .. ▸ (Option.some.injEq _ _).mp h
        exact ⟨[], h2.symm ▸ (by simp)⟩

lemma generate_func_dtor_spec (ot : ObjectType) (s : GenerationContext) :
    (generate_func_dtor ot s).2.scope = s.scope ∧
    (generate_func_dtor ot s).2.curBB = s.curBB ∧
    ∃ Δ, (generate_func_dtor ot s).2.instrs = s.instrs ++ Δ := by
  unfold generate_func_dtor
  cases h : memoLookup s.dtorMemo ot with
  | some f =>
      simp only [h]
      exact ⟨trivial, trivial, [], by simp⟩
  | none =>
      simp only [h]
      refine ⟨trivial, trivial,
        (dtorFieldInstrs ot.field_types 0 s.nextPtr (s.nextPtr + 1)
          s.nextBB).1 ++ [Instr.retVoid s.nextBB], ?_⟩
      simp

lemma build_allocate_spec (ot : ObjectType) (s : GenerationContext) :
    (build_allocate_shared_obj ot s).2.scope = s.scope ∧
    (build_allocate_shared_obj ot s).2.curBB = s.curBB ∧
    ∃ Δ, (build_allocate_shared_obj ot s).2.instrs = s.instrs ++ Δ := by
  obtain ⟨h1, h2, Δ, h3⟩ := generate_func_dtor_spec ot s
  unfold build_allocate_shared_obj
  refine ⟨by simpa [emit] using h1, by simpa [emit] using h2,
    Δ ++ [Instr.alloc ot (generate_func_dtor ot s).1
      (generate_func_dtor ot s).2.nextPtr (generate_func_dtor ot s).2.curBB], ?_⟩
  simp [emit, h3]

lemma storeCaptures_spec :
    ∀ (names : List String) (obj : Ptr) (idx : Nat) (s s' : GenerationContext),
      storeCaptures names obj idx s = some s' →
      ∃ Δ, s' = { s with instrs := s.instrs ++ Δ } := by
  intro names
  induction names with
  | nil =>
      intro obj idx s s' h
      simp only [storeCaptures] at h
      obtain rfl := (Option.some.injEq _ _).mp h
      exact ⟨[], by simp⟩
  | cons cap rest ih =>
      intro obj idx s s' h
      simp only [storeCaptures] at h
      cases hg : get_var_retained_if_used_later s cap with
      | none => rw [hg] at h; simp at h
      | some pr =>
          obtain ⟨p, s1⟩ := pr
          rw [hg] at h
          obtain ⟨Δ1, rfl⟩ := get_var_retained_spec s cap p s1 hg
          obtain ⟨Δ2, h2⟩ := ih obj (idx + 1) _ s' h
          refine ⟨Δ1 ++ [Instr.setField obj idx p s.curBB] ++ Δ2, ?_⟩
          rw [h2]
          simp [emit]

lemma trace_app {α : Type} {l m : List α} (h : ∃ Δ, m = l ++ Δ) (x : List α) :
    ∃ Δ, m ++ x = l ++ Δ := by
  obtain ⟨Δ, rfl⟩ := h
  exact ⟨Δ ++ x, by simp⟩

lemma trace_trans {α : Type} {l m k : List α} (h1 : ∃ Δ, m = l ++ Δ)
    (h2 : ∃ Δ, k = m ++ Δ) : ∃ Δ, k = l ++ Δ := by
  obtain ⟨a, rfl⟩ := h1
  obtain ⟨b, rfl⟩ := h2
  exact ⟨a ++ b, by simp⟩

lemma trace_weaken {α : Type} {l m k : List α} (h : ∃ Δ, k = l ++ m ++ Δ) :
    ∃ Δ, k = l ++ Δ := by
  obtain ⟨Δ, rfl⟩ := h
  exact ⟨m ++ Δ, by simp⟩

/-- Emission only ever appends to the module's instruction trace. -/
lemma generate_expr_instrs_mono :
    ∀ (e : ExprInfo) (s : GenerationContext) (p : Ptr) (s' : GenerationContext),
      generate_expr e s = some (p, s') → ∃ Δ, s'.instrs = s.instrs ++ Δ := by
  intro e
  induction e with
  | var v fv =>
      intro s p s' h
      simp only [generate_expr, generate_var] at h
      cases v with
      | termVar n =>
          obtain ⟨Δ, h2⟩ := get_var_retained_spec s n p s' h
          exact ⟨Δ, by rw [h2]⟩
      | tyVar n => simp at h
  | lit lfv ln fv =>
      intro s p s' h
      simp only [generate_expr, generate_literal] at h
      obtain ⟨h1, h2⟩ := Prod.mk.injEq .. ▸ (Option.some.injEq _ _).mp h
      exact ⟨[.litEmit ln s.nextPtr s.curBB], by rw [← h2]⟩
  | app f a fv ihf iha =>
      intro s p s' h
      simp only [generate_expr] at h
      split at h
      · simp at h
      next sc1 h1 =>
        split at h
        · simp at h
        next fc s2 h2 =>
          split at h
          · simp at h
          next sc3 h3 =>
            split at h
            · simp at h
            next ac s4 h4 =>
              obtain ⟨hp, hs'⟩ := Prod.mk.injEq .. ▸ (Option.some.injEq _ _).mp h
              obtain ⟨Δf, hf⟩ := ihf _ _ _ h2
              obtain ⟨Δa, ha⟩ := iha _ _ _ h4
              have t1 : ∃ Δ, s2.instrs = s.instrs ++ Δ := ⟨Δf, hf⟩
              have t2 : ∃ Δ, s4.instrs = s.instrs ++ Δ :=
                trace_trans t1 ⟨Δa, ha⟩
              rw [← hs']
              exact trace_app t2 _
  | lam argv val fv ihv =>
      intro s p s' h
      simp only [generate_expr] at h
      split at h
      · simp at h
      next capRetains hrc =>
        split at h
        · simp at h
        next bodyCode sB hgen =>
          split at h
          · simp at h
          next sStored hsc =>
            obtain ⟨hp, hs'⟩ := Prod.mk.injEq .. ▸ (Option.some.injEq _ _).mp h
            obtain ⟨Δb, hb⟩ := ihv _ _ _ hgen
            have t1 : ∃ Δ, sB.instrs = s.instrs ++ Δ :=
              trace_weaken (trace_weaken (trace_weaken (trace_weaken ⟨Δb, hb⟩)))
            have t2 : ∃ Δ, (emit (.ret bodyCode sB.curBB) sB).instrs =
                s.instrs ++ Δ := trace_app t1 _
            obtain ⟨hba, hbb, Δd, hd⟩ := build_allocate_spec
              (closure_obj_type (captured_names_of argv.name val.free_vars))
              { emit (.ret bodyCode sB.curBB) sB with
                  scope := s.scope, curBB := s.curBB, dtorMemo := s.dtorMemo }
            have t3 := trace_trans t2 ⟨Δd, hd⟩
            have t4 := trace_app t3
              [Instr.setFuncField (build_allocate_shared_obj
                  (closure_obj_type (captured_names_of argv.name val.free_vars))
                  { emit (.ret bodyCode sB.curBB) sB with
                      scope := s.scope, curBB := s.curBB,
                      dtorMemo := s.dtorMemo }).1 1 s.nextFn
                (build_allocate_shared_obj
                  (closure_obj_type (captured_names_of argv.name val.free_vars))
                  { emit (.ret bodyCode sB.curBB) sB with
                      scope := s.scope, curBB := s.curBB,
                      dtorMemo := s.dtorMemo }).2.curBB]
            obtain ⟨Δs, hss⟩ := storeCaptures_spec _ _ _ _ _ hsc
            rw [← hs', hss]
            exact trace_trans t4 ⟨Δs, by simp [emit]⟩
  | letE v bound val fv ihb ihv =>
      intro s p s' h
      simp only [generate_expr] at h
      split at h
      · simp at h
      next sc1 h1 =>
        split at h
        · simp at h
        next bc s2 h2 =>
          split at h
          · simp at h
          next sc3 h3 =>
            split at h
            · simp at h
            next vc s4 h4 =>
              split at h
              · simp at h
              next sc5 h5 =>
                obtain ⟨hp, hs'⟩ := Prod.mk.injEq .. ▸ (Option.some.injEq _ _).mp h
                obtain ⟨Δb, hbb⟩ := ihb _ _ _ h2
                have t1 : ∃ Δ, s2.instrs = s.instrs ++ Δ := ⟨Δb, hbb⟩
                obtain ⟨Δv, hv⟩ := ihv _ _ _ h4
                have t2 : ∃ Δ, s4.instrs = s.instrs ++ Δ := by
                  by_cases hmem : v.name ∈ val.free_vars
                  · rw [if_pos hmem] at hv
                    exact trace_trans t1 ⟨Δv, hv⟩
                  · rw [if_neg hmem] at hv
                    exact trace_trans (trace_app t1
                      [Instr.release bc s2.curBB]) ⟨Δv, by
                        simpa [build_release, emit] using hv⟩
                rw [← hs']
                exact t2
  | ifE c t e fv ihc iht ihe =>
      intro s p s' h
      simp only [generate_expr] at h
      split at h
      · simp at h
      next sc1 h1 =>
        split at h
        · simp at h
        next cc s2 h2 =>
          split at h
          · simp at h
          next sc3 h3 =>
            split at h
            · simp at h
            next relThen hrt =>
              split at h
              · simp at h
              next tc s5 h4 =>
                split at h
                · simp at h
                next relElse hre =>
                  split at h
                  · simp at h
                  next ec s6 h5 =>
                    obtain ⟨hp, hs'⟩ :=
                      Prod.mk.injEq .. ▸ (Option.some.injEq _ _).mp h
                    obtain ⟨Δc, hc⟩ := ihc _ _ _ h2
                    have t1 : ∃ Δ, s2.instrs = s.instrs ++ Δ := ⟨Δc, hc⟩
                    obtain ⟨Δt, ht⟩ := iht _ _ _ h4
                    have t2 : ∃ Δ, s5.instrs = s.instrs ++ Δ :=
                      trace_weaken (trace_weaken ⟨Δt, ht⟩) |>.imp
                        (fun Δ hh => hh) |> trace_trans t1
                    obtain ⟨Δe, he⟩ := ihe _ _ _ h5
                    have t3 : ∃ Δ, s6.instrs = s.instrs ++ Δ := by
                      refine trace_trans (trace_app (trace_app t2
                        [Instr.br (s2.nextBB + 2) s5.curBB]) relElse) ⟨Δe, ?_⟩
                      simpa [emit] using he
                    rw [← hs']
                    exact trace_app t3 [Instr.br (s2.nextBB + 2) s6.curBB,
                        Instr.phi [(tc, s2.nextBB), (ec, s2.nextBB + 1)]
                          s6.nextPtr (s2.nextBB + 2)] |>.imp (fun Δ hh => by
                      simpa [emit] using hh)
  | typeE fv =>
      intro s p s' h
      simp [generate_expr] at h

/-- The refcount bumps of Rules R2/R6 and the push/pop bracketing of `Let` and
`Lam` leave the enclosing scope exactly as it was: emission of any expression
restores every binding and every `used_later` counter. -/
lemma generate_expr_scope_eq :
    ∀ (e : ExprInfo) (s : GenerationContext) (p : Ptr) (s' : GenerationContext),
      NodupFV e → s.scope.WF → generate_expr e s = some (p, s') →
      s'.scope = s.scope := by
  intro e
  induction e with
  | var v fv =>
      intro s p s' _ _ h
      simp only [generate_expr, generate_var] at h
      cases v with
      | termVar n =>
          obtain ⟨Δ, h2⟩ := get_var_retained_spec s n p s' h
          rw [h2]
      | tyVar n => simp at h
  | lit lfv ln fv =>
      intro s p s' _ _ h
      simp only [generate_expr, generate_literal] at h
      obtain ⟨h1, h2⟩ := Prod.mk.injEq .. ▸ (Option.some.injEq _ _).mp h
      rw [← h2]
  | app f a fv ihf iha =>
      intro s p s' hnd hwf h
      obtain ⟨hfvn, hndf, hnda⟩ := hnd
      simp only [generate_expr] at h
      split at h
      · simp at h
      next sc1 h1 =>
        split at h
        · simp at h
        next fc s2 h2 =>
          split at h
          · simp at h
          next sc3 h3 =>
            split at h
            · simp at h
            next ac s4 h4 =>
              obtain ⟨hp, hs'⟩ := Prod.mk.injEq .. ▸ (Option.some.injEq _ _).mp h
              have hwf1 : sc1.WF := WF_modify_list _ _ _ _ hwf h1
              have hsc2 : s2.scope = sc1 := ihf _ _ _ hndf hwf1 h2
              have hcancel : sc1.modify_used_later a.free_vars (-1) =
                  some s.scope :=
                modify_list_cancel a.free_vars hnda.free_vars_nodup _ _ h1
              rw [hsc2, hcancel] at h3
              obtain rfl := (Option.some.injEq _ _).mp h3
              have hsc4 : s4.scope = s.scope :=
                iha { s2 with scope := s.scope } ac s4 hnda hwf h4
              rw [← hs']
              exact hsc4
  | lam argv val fv ihv =>
      intro s p s' _ _ h
      simp only [generate_expr] at h
      split at h
      · simp at h
      next capRetains hrc =>
        split at h
        · simp at h
        next bodyCode sB hgen =>
          split at h
          · simp at h
          next sStored hsc =>
            obtain ⟨hp, hs'⟩ := Prod.mk.injEq .. ▸ (Option.some.injEq _ _).mp h
            obtain ⟨Δs, hss⟩ := storeCaptures_spec _ _ _ _ _ hsc
            obtain ⟨hba, hbb, Δd, hd⟩ := build_allocate_spec
              (closure_obj_type (captured_names_of argv.name val.free_vars))
              { emit (.ret bodyCode sB.curBB) sB with
                  scope := s.scope, curBB := s.curBB, dtorMemo := s.dtorMemo }
            rw [← hs', hss]
            simpa [emit] using hba
  | letE v bound val fv ihb ihv =>
      intro s p s' hnd hwf h
      obtain ⟨hfvn, hndb, hndv⟩ := hnd
      simp only [generate_expr] at h
      split at h
      · simp at h
      next sc1 h1 =>
        split at h
        · simp at h
        next bc s2 h2 =>
          split at h
          · simp at h
          next sc3 h3 =>
            split at h
            · simp at h
            next vc s4 h4 =>
              split at h
              · simp at h
              next sc5 h5 =>
                obtain ⟨hp, hs'⟩ := Prod.mk.injEq .. ▸ (Option.some.injEq _ _).mp h
                have hwf1 : sc1.WF := WF_modify_list _ _ _ _ hwf h1
                have hsc2 : s2.scope = sc1 := ihb _ _ _ hndb hwf1 h2
                have hSn : (hsRemove val.free_vars v.name).Nodup :=
                  List.Nodup.filter _ hndv.free_vars_nodup
                have hcancel : sc1.modify_used_later
                    (hsRemove val.free_vars v.name) (-1) = some s.scope :=
                  modify_list_cancel _ hSn _ _ h1
                rw [hsc2, hcancel] at h3
                obtain rfl := (Option.some.injEq _ _).mp h3
                have hwfp : (s.scope.push v.name bc).WF := WF_push _ _ _ hwf
                have hsc4 : s4.scope = s.scope.push v.name bc := by
                  by_cases hmem : v.name ∈ val.free_vars
                  · rw [if_pos hmem] at h4
                    exact ihv _ _ _ hndv hwfp h4
                  · rw [if_neg hmem] at h4
                    exact ihv _ _ _ hndv hwfp h4
                rw [hsc4, push_pop _ _ _ hwf] at h5
                obtain rfl := (Option.some.injEq _ _).mp h5
                rw [← hs']
  | ifE c t e fv ihc iht ihe =>
      intro s p s' hnd hwf h
      obtain ⟨hfvn, hndc, hndt, hnde⟩ := hnd
      simp only [generate_expr] at h
      split at h
      · simp at h
      next sc1 h1 =>
        split at h
        · simp at h
        next cc s2 h2 =>
          split at h
          · simp at h
          next sc3 h3 =>
            split at h
            · simp at h
            next relThen hrt =>
              split at h
              · simp at h
              next tc s5 h4 =>
                split at h
                · simp at h
                next relElse hre =>
                  split at h
                  · simp at h
                  next ec s6 h5 =>
                    obtain ⟨hp, hs'⟩ :=
                      Prod.mk.injEq .. ▸ (Option.some.injEq _ _).mp h
                    have hun : (hsExtend t.free_vars e.free_vars).Nodup :=
                      List.Nodup.union _ hndt.free_vars_nodup
                    have hwf1 : sc1.WF := WF_modify_list _ _ _ _ hwf h1
                    have hsc2 : s2.scope = sc1 := ihc _ _ _ hndc hwf1 h2
                    have hcancel : sc1.modify_used_later
                        (hsExtend t.free_vars e.free_vars) (-1) = some s.scope :=
                      modify_list_cancel _ hun _ _ h1
                    rw [hsc2, hcancel] at h3
                    obtain rfl := (Option.some.injEq _ _).mp h3
                    have hsc5 : s5.scope = s.scope :=
                      iht { scope := s.scope, curBB := s2.nextBB,
                            dtorMemo := s2.dtorMemo,
                            instrs := s2.instrs ++
                              [Instr.loadField cc 1 s2.nextPtr s2.curBB,
                               Instr.release cc s2.curBB,
                               Instr.intCast s2.nextPtr (s2.nextPtr + 1) s2.curBB,
                               Instr.condBr (s2.nextPtr + 1) s2.nextBB
                                 (s2.nextBB + 1) s2.curBB] ++ relThen,
                            nextPtr := s2.nextPtr + 2, nextBB := s2.nextBB + 3,
                            nextFn := s2.nextFn } tc s5 hndt hwf h4
                    have hsc6 : s6.scope = s.scope := by
                      have := ihe _ _ _ hnde (by
                        show (emit (.br (s2.nextBB + 2) s5.curBB) s5).scope.WF
                        simpa [emit, hsc5] using hwf) h5
                      simpa [emit, hsc5] using this
                    rw [← hs']
                    exact hsc6
  | typeE fv =>
      intro s p s' _ _ h
      simp [generate_expr] at h

/-
  Claim theorems.
-/

/-- An empty generation context, as at the start of `main`. -/
def emptyContext : GenerationContext :=
  { scope := ⟨[]⟩, curBB := 0, dtorMemo := [], instrs := [], nextPtr := 0,
    nextBB := 1, nextFn := 0 }

/-- C1: For a term variable `n` bound in the Scope, compiling `Var(n)` returns
the IR value currently bound to `n`, and emits a retain call on exactly that
value if and only if `used_later[n] > 0` at that program point; with
`used_later = 0` the state is returned unchanged, transferring the existing
handle. -/
theorem C1_var_retains_iff_used_later (n : String) (fv : List String)
    (s : GenerationContext) (lv : LocalVariable)
    (h : s.scope.get n = some lv) :
    generate_expr (.var (.termVar n) fv) s =
      some (lv.code, if 0 < lv.used_later then build_retain lv.code s else s) ∧
    (build_retain lv.code s).instrs = s.instrs ++ [.retain lv.code s.curBB] := by
  constructor
  · simp only [generate_expr, generate_var, get_var_retained_if_used_later, h]
    by_cases hu : 0 < lv.used_later <;> simp [hu]
  · rfl

theorem C1_var_retains_iff_used_later_witness :
    (∃ r, generate_expr (.var (.termVar "x") ["x"])
      { emptyContext with scope := ⟨[("x", [⟨5, 2⟩])]⟩, nextPtr := 9 } =
      some r) ∧
    (∃ r, generate_expr (.var (.termVar "y") [])
      { emptyContext with scope := ⟨[("y", [⟨4, 0⟩])]⟩, nextPtr := 9 } =
      some r) :=
  ⟨⟨_, (C1_var_retains_iff_used_later "x" ["x"] _ ⟨5, 2⟩ (by decide)).1⟩,
   ⟨_, (C1_var_retains_iff_used_later "y" [] _ ⟨4, 0⟩ (by decide)).1⟩⟩

lemma mem_hsExtend (n : String) (base add : List String) :
    n ∈ hsExtend base add ↔ n ∈ add ∨ n ∈ base := by
  show n ∈ add ∪ base ↔ _
  exact List.mem_union_iff

/-- C5: the free-variable pass annotates `Let(x, b, v)` with
`(fv(v) \ {x}) ∪ fv(b)`; in particular, when `x` occurs free in the bound
expression `b`, `x` remains in the annotated set (non-recursive let: the bound
expression refers to the outer binding). -/
theorem C5_let_free_vars_non_recursive (x : Var) (bound val : ExprInfo)
    (fv0 : List String) :
    (∀ n, n ∈ (calculate_free_vars (.letE x bound val fv0)).free_vars ↔
      ((n ∈ (calculate_free_vars val).free_vars ∧ n ≠ x.name) ∨
        n ∈ (calculate_free_vars bound).free_vars)) ∧
    (x.name ∈ (calculate_free_vars bound).free_vars →
      x.name ∈ (calculate_free_vars (.letE x bound val fv0)).free_vars) := by
  have hmem : ∀ n, n ∈ (calculate_free_vars (.letE x bound val fv0)).free_vars ↔
      ((n ∈ (calculate_free_vars val).free_vars ∧ n ≠ x.name) ∨
        n ∈ (calculate_free_vars bound).free_vars) := by
    intro n
    rw [show (calculate_free_vars (.letE x bound val fv0)).free_vars =
        hsExtend (hsRemove (calculate_free_vars val).free_vars x.name)
          (calculate_free_vars bound).free_vars from rfl,
      mem_hsExtend]
    simp only [hsRemove, List.mem_filter, decide_eq_true_eq]
    tauto
  exact ⟨hmem, fun h => (hmem x.name).mpr (Or.inr h)⟩

theorem C5_let_free_vars_non_recursive_witness :
    "x" ∈ ExprInfo.free_vars (calculate_free_vars
      (.letE (.termVar "x") (.var (.termVar "x") []) (.lit [] "5" []) [])) :=
  (C5_let_free_vars_non_recursive (.termVar "x") (.var (.termVar "x") [])
    (.lit [] "5" []) []).2 (by decide)

lemma dataLookup_go_mem (n : String) :
    ∀ (d : List (String × List LocalVariable)) st,
      LocalVariables.dataLookup.go n d = some st → (n, st) ∈ d := by
  intro d
  induction d with
  | nil => intro st h; simp [LocalVariables.dataLookup.go] at h
  | cons p r ih =>
      obtain ⟨k, stk⟩ := p
      intro st h
      by_cases hk : k = n
      · subst hk
        simp only [LocalVariables.dataLookup.go, if_pos rfl] at h
        obtain rfl := (Option.some.injEq _ _).mp h
        exact List.mem_cons_self _ _
      · simp only [LocalVariables.dataLookup.go, if_neg hk] at h
        exact List.mem_cons_of_mem _ (ih st h)

lemma get_eq_of_dataLookup_eq (s₁ s₂ : LocalVariables) (n : String)
    (h : s₁.dataLookup n = s₂.dataLookup n) : s₁.get n = s₂.get n := by
  unfold LocalVariables.get
  rw [h]

/-- C8: decrementing a `used_later` counter below zero always aborts.
`add_i32_to_u32` panics (debug-mode underflow check) whenever the magnitude of
a negative delta exceeds the counter, and `modify_used_later` with such a
delta on a set containing a name whose counter is too small panics as a
whole rather than wrapping the unsigned counter. -/
theorem C8_used_later_underflow_aborts :
    (∀ (u : Nat) (i : Int), i < 0 → u < i.natAbs → add_i32_to_u32 u i = none) ∧
    (∀ (names : List String) (s : LocalVariables) (i : Int) (n : String)
        (lv : LocalVariable), i < 0 → n ∈ names → s.get n = some lv →
        lv.used_later < i.natAbs → s.modify_used_later names i = none) := by
  have hadd : ∀ (u : Nat) (i : Int), i < 0 → u < i.natAbs →
      add_i32_to_u32 u i = none := by
    intro u i hi hu
    unfold add_i32_to_u32
    rw [if_pos hi, if_neg (by omega)]
  refine ⟨hadd, ?_⟩
  intro names
  induction names with
  | nil => intro s i n lv _ hn; simp at hn
  | cons m rest ih =>
      intro s i n lv hi hn hget hu
      simp only [LocalVariables.modify_used_later]
      by_cases hm : m = n
      · subst hm
        have hnone : s.modify_used_later_one m i = none := by
          rw [← Option.not_isSome_iff_eq_none]
          rw [modify_one_isSome_iff]
          rintro ⟨v, tl, hlook, hsome⟩
          unfold LocalVariables.get at hget
          rw [hlook] at hget
          simp only [Option.some_bind, List.head?] at hget
          obtain rfl := (Option.some.injEq _ _).mp hget
          rw [hadd v.used_later i hi hu] at hsome
          simp at hsome
        rw [hnone]
      · have hn' : n ∈ rest := by
          rcases List.mem_cons.mp hn with h | h
          · exact absurd h.symm hm
          · exact h
        cases h1 : s.modify_used_later_one m i with
        | none => rfl
        | some s1 =>
            have hl : s1.dataLookup n = s.dataLookup n :=
              modify_one_frame m i s s1 h1 n (fun hh => hm hh.symm)
            have hget1 : s1.get n = some lv := by
              rw [get_eq_of_dataLookup_eq s1 s n hl]
              exact hget
            exact ih s1 i n lv hi hn' hget1 hu

theorem C8_used_later_underflow_aborts_witness :
    add_i32_to_u32 0 (-1) = none ∧
    LocalVariables.modify_used_later ⟨[("x", [⟨3, 0⟩])]⟩ ["x"] (-1) = none :=
  ⟨C8_used_later_underflow_aborts.1 0 (-1) (by decide) (by decide),
   C8_used_later_underflow_aborts.2 ["x"] ⟨[("x", [⟨3, 0⟩])]⟩ (-1) "x" ⟨3, 0⟩
    (by decide) (by decide) (by decide) (by decide)⟩

/-- C9: the ordered capture list computed at lambda-emission time is a
deterministic function of the lambda's annotated free-variable set and its
parameter name (equal annotations give equal capture lists, hence equal
closure layouts); it contains exactly the names free in the body other than
the parameter and `%SELF%`; and the corresponding closure layout is a control
block, a function pointer, and one SubObject field per capture. -/
theorem C9_captured_names_deterministic :
    (∀ (p₁ p₂ : String) (fv₁ fv₂ : List String), p₁ = p₂ → fv₁ = fv₂ →
      captured_names_of p₁ fv₁ = captured_names_of p₂ fv₂ ∧
      closure_obj_type (captured_names_of p₁ fv₁) =
        closure_obj_type (captured_names_of p₂ fv₂)) ∧
    (∀ (p : String) (fv : List String) (n : String),
      n ∈ captured_names_of p fv ↔ (n ∈ fv ∧ n ≠ p ∧ n ≠ SELF_NAME)) ∧
    (∀ (p : String) (fv : List String),
      (closure_obj_type (captured_names_of p fv)).field_types =
        [.ControlBlock, .LambdaFunction] ++
          List.replicate (captured_names_of p fv).length .SubObject) := by
  refine ⟨?_, ?_, ?_⟩
  · rintro p₁ p₂ fv₁ fv₂ rfl rfl
    exact ⟨rfl, rfl⟩
  · intro p fv n
    simp only [captured_names_of, hsRemove, List.mem_filter, decide_eq_true_eq]
    tauto
  · intro p fv
    simp [closure_obj_type, List.map_const']

theorem C9_captured_names_deterministic_witness :
    captured_names_of "x" ["y", "x", "%SELF%"] =
      captured_names_of "x" ["y", "x", "%SELF%"] ∧
    closure_obj_type (captured_names_of "x" ["y", "x", "%SELF%"]) =
      closure_obj_type (captured_names_of "x" ["y", "x", "%SELF%"]) :=
  C9_captured_names_deterministic.1 "x" "x" ["y", "x", "%SELF%"]
    ["y", "x", "%SELF%"] rfl rfl

/-- C10: the Scope's map never binds a name to an empty stack: push and pop
preserve the invariant, pop removes the map entry when the last binding goes
away (so a name is present iff it has a live binding), get returns the most
recently pushed binding of a name, and pop after push restores the scope
exactly. -/
theorem C10_scope_stack_invariant (s : LocalVariables) (n : String) (c : Ptr) :
    (s.WF → (s.push n c).WF) ∧
    (∀ s', s.WF → s.pop n = some s' → s'.WF) ∧
    ((s.push n c).get n = some ⟨c, 0⟩) ∧
    (s.WF → (s.push n c).pop n = some s) ∧
    (s.WF → ∀ st, s.dataLookup n = some st → st ≠ []) := by
  refine ⟨WF_push s n c, fun s' hw hp => WF_pop s s' n hw hp, get_push s n c,
    push_pop s n c, ?_⟩
  intro hw st hl
  exact hw (n, st) (dataLookup_go_mem n s.data st hl)

theorem C10_scope_stack_invariant_witness :
    ((⟨[("y", [⟨1, 0⟩])]⟩ : LocalVariables).push "x" 7).WF ∧
    ((⟨[("y", [⟨1, 0⟩])]⟩ : LocalVariables).push "x" 7).get "x" = some ⟨7, 0⟩ ∧
    ((⟨[("y", [⟨1, 0⟩])]⟩ : LocalVariables).push "x" 7).pop "x" =
      some ⟨[("y", [⟨1, 0⟩])]⟩ := by
  have h := C10_scope_stack_invariant ⟨[("y", [⟨1, 0⟩])]⟩ "x" 7
  exact ⟨h.1 (by decide), h.2.2.1, h.2.2.2.1 (by decide)⟩

/-- C4: in `generate_app`, `used_later` is bumped by the free variables of the
argument around the emission of the function, and in `generate_let` by
`(fv(val) \ {x})` around the emission of the bound expression; the decrement
that follows the first sub-expression restores the scope exactly, so at the
moment the second sub-expression is emitted every `used_later` counter equals
its prior value. -/
theorem C4_used_later_restored_at_second_subexpr :
    (∀ (f a : ExprInfo) (s : GenerationContext) (sc1 : LocalVariables)
        (fc : Ptr) (s2 : GenerationContext),
      s.scope.WF → NodupFV f → a.free_vars.Nodup →
      s.scope.modify_used_later a.free_vars 1 = some sc1 →
      generate_expr f { s with scope := sc1 } = some (fc, s2) →
      s2.scope.modify_used_later a.free_vars (-1) = some s.scope) ∧
    (∀ (x : Var) (bound val : ExprInfo) (s : GenerationContext)
        (sc1 : LocalVariables) (bc : Ptr) (s2 : GenerationContext),
      s.scope.WF → NodupFV bound → val.free_vars.Nodup →
      s.scope.modify_used_later (hsRemove val.free_vars x.name) 1 = some sc1 →
      generate_expr bound { s with scope := sc1 } = some (bc, s2) →
      s2.scope.modify_used_later (hsRemove val.free_vars x.name) (-1) =
        some s.scope) := by
  constructor
  · intro f a s sc1 fc s2 hwf hndf hnda h1 h2
    have hwf1 : sc1.WF := WF_modify_list _ _ _ _ hwf h1
    have hsc2 : s2.scope = sc1 :=
      generate_expr_scope_eq f { s with scope := sc1 } fc s2 hndf hwf1 h2
    rw [hsc2]
    exact modify_list_cancel a.free_vars hnda _ _ h1
  · intro x bound val s sc1 bc s2 hwf hndb hndv h1 h2
    have hwf1 : sc1.WF := WF_modify_list _ _ _ _ hwf h1
    have hsc2 : s2.scope = sc1 :=
      generate_expr_scope_eq bound { s with scope := sc1 } bc s2 hndb hwf1 h2
    rw [hsc2]
    exact modify_list_cancel _ (List.Nodup.filter _ hndv) _ _ h1

/-- A concrete context with two bound variables, used by witnesses. -/
def c4WitnessContext : GenerationContext :=
  { emptyContext with
      scope := ⟨[("g", [⟨1, 0⟩]), ("y", [⟨2, 0⟩])]⟩
      nextPtr := 3 }

theorem C4_used_later_restored_at_second_subexpr_witness :
    (∃ sc1 fc s2,
      LocalVariables.modify_used_later ⟨[("g", [⟨1, 0⟩]), ("y", [⟨2, 0⟩])]⟩
        ["y"] 1 = some sc1 ∧
      generate_expr (.var (.termVar "g") ["g"])
        { emptyContext with scope := sc1, nextPtr := 3 } = some (fc, s2) ∧
      s2.scope.modify_used_later ["y"] (-1) =
        some ⟨[("g", [⟨1, 0⟩]), ("y", [⟨2, 0⟩])]⟩) ∧
    (∃ sc1 bc s2,
      LocalVariables.modify_used_later ⟨[("g", [⟨1, 0⟩]), ("y", [⟨2, 0⟩])]⟩
        (hsRemove ["y", "x"] "x") 1 = some sc1 ∧
      generate_expr (.var (.termVar "g") ["g"])
        { emptyContext with scope := sc1, nextPtr := 3 } = some (bc, s2) ∧
      s2.scope.modify_used_later (hsRemove ["y", "x"] "x") (-1) =
        some ⟨[("g", [⟨1, 0⟩]), ("y", [⟨2, 0⟩])]⟩) := by
  constructor
  · exact ⟨_, _, _, rfl, rfl,
      C4_used_later_restored_at_second_subexpr.1
        (.var (.termVar "g") ["g"]) (.var (.termVar "y") ["y"])
        c4WitnessContext _ _ _
        (by decide) (by decide) (by decide) rfl rfl⟩
  · exact ⟨_, _, _, rfl, rfl,
      C4_used_later_restored_at_second_subexpr.2
        (.termVar "x") (.var (.termVar "g") ["g"])
        (.var (.termVar "y") ["y", "x"])
        c4WitnessContext _ _ _
        (by decide) (by decide) (by decide) rfl rfl⟩

/-- C6 counterexample: compiling `\x -> (\y -> y)` from the empty context emits
TWO allocations of the closure layout `[ControlBlock, LambdaFunction]` whose
control blocks store pointers to two DIFFERENT destructor functions (ids 2 and
3): the inner closure is allocated in the nested generation context, whose
`runtimes` map is a clone whose additions are dropped on return, so the outer
closure's allocation misses the memo and generates a second destructor. -/
theorem C6_counterexample :
    ∃ r s', generate_expr
      (.lam (.termVar "x")
        (.lam (.termVar "y") (.var (.termVar "y") ["y"]) []) [])
      emptyContext = some (r, s') ∧
    Instr.alloc ⟨[.ControlBlock, .LambdaFunction]⟩ 2 5 1 ∈ s'.instrs ∧
    Instr.alloc ⟨[.ControlBlock, .LambdaFunction]⟩ 3 7 0 ∈ s'.instrs ∧
    (2 : Nat) ≠ 3 :=
  ⟨_, _, rfl, by decide, by decide, by decide⟩

/-- C6 (amended): destructor generation is memoized per layout within a single
generation context: after one `generate_func_dtor` the memo holds the function,
a second call returns the same function with the state unchanged, and two
allocations of the same layout issued from the same context store the same
destructor id.  (Across a nested lambda-body context the memo is cloned and
the clone's additions are discarded, as C6_counterexample shows.) -/
theorem C6_dtor_memoized_per_context (ot : ObjectType) (s : GenerationContext) :
    memoLookup ((generate_func_dtor ot s).2).dtorMemo ot =
      some (generate_func_dtor ot s).1 ∧
    generate_func_dtor ot ((generate_func_dtor ot s).2) =
      ((generate_func_dtor ot s).1, (generate_func_dtor ot s).2) ∧
    (generate_func_dtor ot ((build_allocate_shared_obj ot s).2)).1 =
      (generate_func_dtor ot s).1 := by
  have h1 : memoLookup ((generate_func_dtor ot s).2).dtorMemo ot =
      some (generate_func_dtor ot s).1 := by
    unfold generate_func_dtor
    cases hlook : memoLookup s.dtorMemo ot with
    | some f => simpa using hlook
    | none => simp [memoLookup]
  have hit : ∀ (t : GenerationContext) (d : Nat),
      memoLookup t.dtorMemo ot = some d → generate_func_dtor ot t = (d, t) := by
    intro t d h
    unfold generate_func_dtor
    rw [h]
  refine ⟨h1, hit _ _ h1, ?_⟩
  have h2 : memoLookup ((build_allocate_shared_obj ot s).2).dtorMemo ot =
      some (generate_func_dtor ot s).1 := by
    show memoLookup ((generate_func_dtor ot s).2).dtorMemo ot = _
    exact h1
  rw [hit _ _ h2]

/-- Is `src` a predecessor block of `dst` in the emitted trace, i.e. does some
branch instruction emitted in `src` target `dst`? -/
def isPredOf (instrs : List Instr) (src dst : BB) : Bool :=
  instrs.any (fun i =>
    match i with
    | .br t bb => bb = src && t = dst
    | .condBr _ t e bb => bb = src && (t = dst || e = dst)
    | _ => false)

/-- C7: compiling a conditional whose then-branch is itself a conditional
produces a continuation-block phi whose then-incoming entry is paired with the
originally appended then block (bb 1), although no branch emitted in bb 1
targets the continuation block (bb 3): control reaches it from the inner
conditional's own continuation block (bb 6).  The phi therefore names a
non-predecessor, and the emitted module cannot pass LLVM verification. -/
theorem C7_phi_incoming_not_predecessor :
    ∃ r s', generate_expr
      (.ifE (.lit [] "c1" [])
        (.ifE (.lit [] "c2" []) (.lit [] "a" []) (.lit [] "b" []) [])
        (.lit [] "d" []) [])
      emptyContext = some (r, s') ∧
    Instr.phi [(8, 1), (9, 2)] 10 3 ∈ s'.instrs ∧
    isPredOf s'.instrs 1 3 = false ∧
    isPredOf s'.instrs 6 3 = true :=
  ⟨_, _, rfl, by decide, by decide, by decide⟩

lemma get_foldl_push_not_mem :
    ∀ (pairs : List (String × Ptr)) (base : LocalVariables) (n : String),
      n ∉ pairs.map Prod.fst →
      (pairs.foldl (fun sc p => sc.push p.1 p.2) base).get n = base.get n := by
  intro pairs
  induction pairs with
  | nil => intro base n _; rfl
  | cons p rest ih =>
      obtain ⟨m, q⟩ := p
      intro base n hn
      have hnm : m ≠ n := by
        intro hh
        exact hn (by simp [hh])
      have hnr : n ∉ rest.map Prod.fst := by
        intro hh
        exact hn (by simp [hh])
      simp only [List.foldl_cons]
      rw [ih (base.push m q) n hnr]
      exact get_push_ne base m n q hnm

lemma retainCaptures_fold_push :
    ∀ (names : List String) (ptrs : List Ptr) (base : LocalVariables) (bb : BB),
      names.Nodup → names.length = ptrs.length →
      retainCaptures
        ((List.zip names ptrs).foldl (fun sc p => sc.push p.1 p.2) base)
        names bb = some (ptrs.map (fun q => Instr.retain q bb)) := by
  intro names
  induction names with
  | nil =>
      intro ptrs base bb _ hlen
      obtain rfl : ptrs = [] := List.eq_nil_of_length_eq_zero hlen.symm
      rfl
  | cons n rest ih =>
      intro ptrs base bb hnd hlen
      cases ptrs with
      | nil => simp at hlen
      | cons q qrest =>
          have hnr : n ∉ rest := (List.nodup_cons.mp hnd).1
          have hrnd : rest.Nodup := (List.nodup_cons.mp hnd).2
          have hlen' : rest.length = qrest.length := by simpa using hlen
          simp only [List.zip_cons_cons, List.foldl_cons]
          have hget : ((List.zip rest qrest).foldl
              (fun sc p => sc.push p.1 p.2) (base.push n q)).get n =
              some ⟨q, 0⟩ := by
            rw [get_foldl_push_not_mem (List.zip rest qrest) (base.push n q) n
              (by rw [List.map_fst_zip rest qrest (le_of_eq hlen')]; exact hnr)]
            exact get_push base n q
          simp only [retainCaptures, hget]
          rw [ih qrest (base.push n q) bb hrnd hlen']
          rfl

/-- C3: in the top-level IR function compiled for a lambda, the entry block
begins (before any instruction of the body) with the loads of the captured
fields, then exactly one retain per captured binding, then a release of the
closure-self handle if and only if `%SELF%` is not free in the body, then a
release of the parameter handle if and only if the parameter is not free in
the body. -/
theorem C3_lam_prologue (argv : Var) (val : ExprInfo) (fv : List String)
    (s : GenerationContext) (r : Ptr) (s' : GenerationContext)
    (hnd : val.free_vars.Nodup)
    (h : generate_expr (.lam argv val fv) s = some (r, s')) :
    (∃ tail, s'.instrs =
      s.instrs ++
      (List.range (captured_names_of argv.name val.free_vars).length).map
        (fun i => Instr.loadField (s.nextPtr + 1) (i + 2) (s.nextPtr + 2 + i)
          s.nextBB) ++
      (List.range (captured_names_of argv.name val.free_vars).length).map
        (fun i => Instr.retain (s.nextPtr + 2 + i) s.nextBB) ++
      (if SELF_NAME ∈ val.free_vars then []
       else [Instr.release (s.nextPtr + 1) s.nextBB]) ++
      (if argv.name ∈ val.free_vars then []
       else [Instr.release s.nextPtr s.nextBB]) ++ tail) ∧
    (∀ i < (captured_names_of argv.name val.free_vars).length,
      ((List.range (captured_names_of argv.name val.free_vars).length).map
        (fun i => Instr.retain (s.nextPtr + 2 + i) s.nextBB)).count
        (Instr.retain (s.nextPtr + 2 + i) s.nextBB) = 1) := by
  constructor
  · simp only [generate_expr] at h
    split at h
    · simp at h
    next capRetains hrc =>
      split at h
      · simp at h
      next bodyCode sB hgen =>
        split at h
        · simp at h
        next sStored hsc =>
          obtain ⟨hp, hs'⟩ := Prod.mk.injEq .. ▸ (Option.some.injEq _ _).mp h
          have hndcap : (captured_names_of argv.name val.free_vars).Nodup :=
            List.Nodup.filter _ (List.Nodup.filter _ hnd)
          have hlen : (captured_names_of argv.name val.free_vars).length =
              ((List.range (captured_names_of argv.name
                val.free_vars).length).map
                  (fun i => s.nextPtr + 2 + i)).length := by
            simp
          have hfold := retainCaptures_fold_push
            (captured_names_of argv.name val.free_vars)
            ((List.range (captured_names_of argv.name val.free_vars).length).map
              (fun i => s.nextPtr + 2 + i))
            ((LocalVariables.mk [] |>.push argv.name s.nextPtr).push SELF_NAME
              (s.nextPtr + 1)) s.nextBB hndcap hlen
          rw [hrc] at hfold
          have hcap := (Option.some.injEq _ _).mp hfold
          obtain ⟨Δs, hss⟩ := storeCaptures_spec _ _ _ _ _ hsc
          obtain ⟨Δb, hb⟩ := generate_expr_instrs_mono val _ _ _ hgen
          obtain ⟨hd1, hd2, Δd, hd⟩ := build_allocate_spec
            (closure_obj_type (captured_names_of argv.name val.free_vars))
            { emit (.ret bodyCode sB.curBB) sB with
                scope := s.scope, curBB := s.curBB, dtorMemo := s.dtorMemo }
          refine ⟨Δb ++ [Instr.ret bodyCode sB.curBB] ++ Δd ++
            [Instr.setFuncField (build_allocate_shared_obj (closure_obj_type
              (captured_names_of argv.name val.free_vars))
              { emit (.ret bodyCode sB.curBB) sB with
                  scope := s.scope, curBB := s.curBB,
                  dtorMemo := s.dtorMemo }).1 1 s.nextFn
              (build_allocate_shared_obj (closure_obj_type
                (captured_names_of argv.name val.free_vars))
                { emit (.ret bodyCode sB.curBB) sB with
                    scope := s.scope, curBB := s.curBB,
                    dtorMemo := s.dtorMemo }).2.curBB] ++ Δs, ?_⟩
          rw [← hs', hss]
          simp only [emit] at hd hb ⊢
          simp only [hb, hcap, List.map_map, Function.comp,
            List.append_assoc] at hd ⊢
          rw [hd]
          simp [List.append_assoc]
  · intro i hi
    apply List.count_eq_one_of_mem
    · refine List.Nodup.map ?_ (List.nodup_range _)
      intro a b hab
      injection hab with h1 h2
      exact Nat.add_left_cancel h1
    · exact List.mem_map.mpr ⟨i, List.mem_range.mpr hi, rfl⟩

theorem C3_lam_prologue_witness :
    ∃ r s', generate_expr
      (.lam (.termVar "x") (.var (.termVar "y") ["y"]) ["y"])
      { emptyContext with scope := ⟨[("y", [⟨9, 0⟩])]⟩, nextPtr := 10 } =
      some (r, s') ∧
    ∃ tail, s'.instrs =
      [Instr.loadField 11 2 12 1, Instr.retain 12 1, Instr.release 11 1,
       Instr.release 10 1] ++ tail := by
  obtain ⟨tail, heq⟩ := (C3_lam_prologue (.termVar "x")
    (.var (.termVar "y") ["y"]) ["y"]
    { emptyContext with scope := ⟨[("y", [⟨9, 0⟩])]⟩, nextPtr := 10 } _ _
    (by decide) rfl).1
  exact ⟨_, _, rfl, tail, by simpa using heq⟩

lemma releaseDeadVars_mem :
    ∀ (other this : List String) (sc : LocalVariables) (bb : BB)
      (rel : List Instr),
      releaseDeadVars other this sc bb = some rel →
      ∀ ins, ins ∈ rel ↔ ∃ v lv, v ∈ other ∧ v ∉ this ∧ sc.get v = some lv ∧
        lv.used_later = 0 ∧ ins = Instr.release lv.code bb := by
  intro other
  induction other with
  | nil =>
      intro this sc bb rel h ins
      simp only [releaseDeadVars] at h
      obtain rfl := (Option.some.injEq _ _).mp h
      simp
  | cons v rest ih =>
      intro this sc bb rel h ins
      simp only [releaseDeadVars] at h
      by_cases hv : v ∈ this
      · rw [if_pos hv] at h
        rw [ih this sc bb rel h ins]
        constructor
        · rintro ⟨v', lv, hv1, hv2, hv3, hv4, hv5⟩
          exact ⟨v', lv, List.mem_cons_of_mem _ hv1, hv2, hv3, hv4, hv5⟩
        · rintro ⟨v', lv, hv1, hv2, hv3, hv4, hv5⟩
          rcases List.mem_cons.mp hv1 with rfl | hv1'
          · exact absurd hv hv2
          · exact ⟨v', lv, hv1', hv2, hv3, hv4, hv5⟩
      · rw [if_neg hv] at h
        cases hg : sc.get v with
        | none => rw [hg] at h; simp at h
        | some lv =>
            rw [hg] at h
            cases hrec : releaseDeadVars rest this sc bb with
            | none => rw [hrec] at h; simp at h
            | some tl =>
                rw [hrec] at h
                simp only [Option.map_some'] at h
                obtain rfl := (Option.some.injEq _ _).mp h
                have ihm := ih this sc bb tl hrec
                by_cases hu : lv.used_later = 0
                · rw [if_pos hu]
                  simp only [List.mem_cons]
                  constructor
                  · rintro (rfl | hm)
                    · exact ⟨v, lv, Or.inl rfl, hv, hg, hu, rfl⟩
                    · obtain ⟨v', lv', h1, h2, h3, h4, h5⟩ := (ihm ins).mp hm
                      exact ⟨v', lv', Or.inr h1, h2, h3, h4, h5⟩
                  · rintro ⟨v', lv', h1, h2, h3, h4, h5⟩
                    rcases h1 with rfl | h1'
                    · rw [hg] at h3
                      obtain rfl := (Option.some.injEq _ _).mp h3
                      exact Or.inl h5
                    · exact Or.inr ((ihm ins).mpr ⟨v', lv', h1', h2, h3, h4, h5⟩)
                · rw [if_neg hu]
                  rw [ihm ins]
                  constructor
                  · rintro ⟨v', lv', h1, h2, h3, h4, h5⟩
                    exact ⟨v', lv', List.mem_cons_of_mem _ h1, h2, h3, h4, h5⟩
                  · rintro ⟨v', lv', h1, h2, h3, h4, h5⟩
                    rcases List.mem_cons.mp h1 with rfl | h1'
                    · rw [hg] at h3
                      obtain rfl := (Option.some.injEq _ _).mp h3
                      exact absurd h4 hu
                    · exact ⟨v', lv', h1', h2, h3, h4, h5⟩

/-- C2: compiling `If(cond, then, else)`: right after the condition is
emitted, the boolean payload (field 1 of the bool object) is loaded and the
condition object is released; then, at the start of the then block, releases
are emitted for exactly those variables that are free in `else`, not free in
`then`, and have `used_later = 0` at that point — and symmetrically at the
start of the else block. -/
theorem C2_if_dead_variable_releases (c t e : ExprInfo) (fv : List String)
    (s : GenerationContext) (r : Ptr) (s' : GenerationContext)
    (hndc : NodupFV c) (hndt : NodupFV t) (hwf : s.scope.WF)
    (h : generate_expr (.ifE c t e fv) s = some (r, s')) :
    ∃ (sc1 : LocalVariables) (cp : Ptr) (s2 : GenerationContext)
      (sc3 : LocalVariables) (relThen relElse : List Instr) (tc ec : Ptr)
      (pT pE : BB) (Δc Δt Δe : List Instr) (phiP : Ptr),
      s.scope.modify_used_later (hsExtend t.free_vars e.free_vars) 1 =
        some sc1 ∧
      generate_expr c { s with scope := sc1 } = some (cp, s2) ∧
      s2.scope.modify_used_later (hsExtend t.free_vars e.free_vars) (-1) =
        some sc3 ∧
      releaseDeadVars e.free_vars t.free_vars sc3 s2.nextBB = some relThen ∧
      releaseDeadVars t.free_vars e.free_vars sc3 (s2.nextBB + 1) =
        some relElse ∧
      s'.instrs = s.instrs ++ Δc ++
        [Instr.loadField cp 1 s2.nextPtr s2.curBB,
         Instr.release cp s2.curBB,
         Instr.intCast s2.nextPtr (s2.nextPtr + 1) s2.curBB,
         Instr.condBr (s2.nextPtr + 1) s2.nextBB (s2.nextBB + 1) s2.curBB] ++
        relThen ++ Δt ++ [Instr.br (s2.nextBB + 2) pT] ++
        relElse ++ Δe ++ [Instr.br (s2.nextBB + 2) pE] ++
        [Instr.phi [(tc, s2.nextBB), (ec, s2.nextBB + 1)] phiP
          (s2.nextBB + 2)] ∧
      (∀ ins, ins ∈ relThen ↔ ∃ v lv, v ∈ e.free_vars ∧ v ∉ t.free_vars ∧
        sc3.get v = some lv ∧ lv.used_later = 0 ∧
        ins = Instr.release lv.code s2.nextBB) ∧
      (∀ ins, ins ∈ relElse ↔ ∃ v lv, v ∈ t.free_vars ∧ v ∉ e.free_vars ∧
        sc3.get v = some lv ∧ lv.used_later = 0 ∧
        ins = Instr.release lv.code (s2.nextBB + 1)) := by
  simp only [generate_expr] at h
  split at h
  · simp at h
  next sc1 h1 =>
    split at h
    · simp at h
    next cc s2 h2 =>
      split at h
      · simp at h
      next sc3 h3 =>
        split at h
        · simp at h
        next relThen hrt =>
          split at h
          · simp at h
          next tc s5 h4 =>
            split at h
            · simp at h
            next relElse hre =>
              split at h
              · simp at h
              next ec s6 h5 =>
                obtain ⟨hp, hs'⟩ :=
                  Prod.mk.injEq .. ▸ (Option.some.injEq _ _).mp h
                have hwf1 : sc1.WF := WF_modify_list _ _ _ _ hwf h1
                have hs2 : s2.scope = sc1 :=
                  generate_expr_scope_eq c { s with scope := sc1 } cc s2
                    hndc hwf1 h2
                have hwf3 : sc3.WF := by
                  refine WF_modify_list _ s2.scope _ _ ?_ h3
                  rw [hs2]
                  exact hwf1
                have hs5 : s5.scope = sc3 :=
                  generate_expr_scope_eq t
                    { scope := sc3, curBB := s2.nextBB,
                      dtorMemo := s2.dtorMemo,
                      instrs := s2.instrs ++
                        [Instr.loadField cc 1 s2.nextPtr s2.curBB,
                         Instr.release cc s2.curBB,
                         Instr.intCast s2.nextPtr (s2.nextPtr + 1) s2.curBB,
                         Instr.condBr (s2.nextPtr + 1) s2.nextBB
                           (s2.nextBB + 1) s2.curBB] ++ relThen,
                      nextPtr := s2.nextPtr + 2, nextBB := s2.nextBB + 3,
                      nextFn := s2.nextFn } tc s5 hndt hwf3 h4
                have hre2 : releaseDeadVars t.free_vars e.free_vars sc3
                    (s2.nextBB + 1) = some relElse := by
                  rw [← hs5]
                  simpa [emit] using hre
                have hrt2 : releaseDeadVars e.free_vars t.free_vars sc3
                    s2.nextBB = some relThen := by simpa using hrt
                obtain ⟨Δc, hc⟩ := generate_expr_instrs_mono c _ _ _ h2
                obtain ⟨Δt, ht⟩ := generate_expr_instrs_mono t _ _ _ h4
                obtain ⟨Δe, he⟩ := generate_expr_instrs_mono e _ _ _ h5
                refine ⟨sc1, cc, s2, sc3, relThen, relElse, tc, ec,
                  s5.curBB, s6.curBB, Δc, Δt, Δe, s6.nextPtr,
                  h1, h2, h3, hrt2, hre2, ?_,
                  releaseDeadVars_mem _ _ _ _ _ hrt2,
                  releaseDeadVars_mem _ _ _ _ _ hre2⟩
                rw [← hs']
                simp only [emit] at hc ht he ⊢
                simp [he, ht, hc, List.append_assoc]

/-- A concrete context with one bound variable, used by the C2 witness. -/
def c2WitnessContext : GenerationContext :=
  { emptyContext with scope := ⟨[("y", [⟨7, 0⟩])]⟩, nextPtr := 8 }

theorem C2_if_dead_variable_releases_witness :
    ∃ r s', generate_expr
      (.ifE (.lit [] "b" []) (.lit [] "one" []) (.var (.termVar "y") ["y"]) [])
      c2WitnessContext = some (r, s') ∧
    (∃ (sc1 : LocalVariables) (cp : Ptr) (s2 : GenerationContext)
      (sc3 : LocalVariables) (relThen relElse : List Instr) (tc ec : Ptr)
      (pT pE : BB) (Δc Δt Δe : List Instr) (phiP : Ptr),
      c2WitnessContext.scope.modify_used_later
        (hsExtend (ExprInfo.lit [] "one" []).free_vars
          (ExprInfo.var (.termVar "y") ["y"]).free_vars) 1 = some sc1 ∧
      generate_expr (.lit [] "b" [])
        { c2WitnessContext with scope := sc1 } = some (cp, s2) ∧
      s2.scope.modify_used_later
        (hsExtend (ExprInfo.lit [] "one" []).free_vars
          (ExprInfo.var (.termVar "y") ["y"]).free_vars) (-1) = some sc3 ∧
      releaseDeadVars (ExprInfo.var (.termVar "y") ["y"]).free_vars
        (ExprInfo.lit [] "one" []).free_vars sc3 s2.nextBB = some relThen ∧
      releaseDeadVars (ExprInfo.lit [] "one" []).free_vars
        (ExprInfo.var (.termVar "y") ["y"]).free_vars sc3 (s2.nextBB + 1) =
        some relElse ∧
      s'.instrs = c2WitnessContext.instrs ++ Δc ++
        [Instr.loadField cp 1 s2.nextPtr s2.curBB,
         Instr.release cp s2.curBB,
         Instr.intCast s2.nextPtr (s2.nextPtr + 1) s2.curBB,
         Instr.condBr (s2.nextPtr + 1) s2.nextBB (s2.nextBB + 1) s2.curBB] ++
        relThen ++ Δt ++ [Instr.br (s2.nextBB + 2) pT] ++
        relElse ++ Δe ++ [Instr.br (s2.nextBB + 2) pE] ++
        [Instr.phi [(tc, s2.nextBB), (ec, s2.nextBB + 1)] phiP
          (s2.nextBB + 2)] ∧
      (∀ ins, ins ∈ relThen ↔ ∃ v lv,
        v ∈ (ExprInfo.var (.termVar "y") ["y"]).free_vars ∧
        v ∉ (ExprInfo.lit [] "one" []).free_vars ∧
        sc3.get v = some lv ∧ lv.used_later = 0 ∧
        ins = Instr.release lv.code s2.nextBB) ∧
      (∀ ins, ins ∈ relElse ↔ ∃ v lv,
        v ∈ (ExprInfo.lit [] "one" []).free_vars ∧
        v ∉ (ExprInfo.var (.termVar "y") ["y"]).free_vars ∧
        sc3.get v = some lv ∧ lv.used_later = 0 ∧
        ins = Instr.release lv.code (s2.nextBB + 1))) := by
  refine ⟨_, _, rfl, ?_⟩
  exact C2_if_dead_variable_releases (.lit [] "b" []) (.lit [] "one" [])
    (.var (.termVar "y") ["y"]) [] c2WitnessContext _ _
    (by decide) (by decide) (by decide) rfl
